import Mathlib

/-!
Shallow embedding of the SmartCache LRU/TTL cache from this repository.

The repository contains two independent implementations of the cache:
* `src/hw1/c3/v2/SmartCache.ts` — embedded below in namespace `V2`
  (doubly linked recency list + `Map` of nodes; eviction purges all
  expired entries, then removes the list tail if still at capacity).
* `src/unnamed/part_001` (compiled copy in `src/unnamed/part_003`) —
  embedded in namespace `P1` (entry `Map` + separate LRU node map/list;
  eviction deletes the first expired entry in map iteration order and
  stops, otherwise deletes the tail; `ttl <= 0` stores no expiry;
  persisted keys are decoded with a canonical-form check).

Modelling conventions:
* JavaScript `Map`s are association lists in insertion order (`mapSet`
  updates in place for an existing key and appends new keys, matching
  JS `Map` semantics); `Date.now()` is an explicit `Int` argument.
* The doubly linked recency list is modelled as a `List` of keys, head
  (most recently used) first; node removal is `List.erase`.  The list
  representation is acyclic by construction, so the provable content of
  the structural invariants is key-set/cardinality agreement.
* JS numbers are modelled by their integer fragment (`Int`); the cache
  logic only compares and adds timestamps and TTLs, and the persisted
  keys exercised by the specification are integers, booleans and
  strings.  `Number(s)` is modelled on decimal integer literals
  (optional sign, digits, and `Number("") = 0`), `String(n)` by
  canonical decimal rendering.
* `localStorage` reads are an explicit input: `Stored.absent` (no blob),
  `Stored.corrupt` (a blob on which `JSON.parse` throws), or
  `Stored.blob` with the parsed object's entries in order.  A blob entry
  is either a well-formed `{value, expiresAt}` object or `BlobEntry.null`,
  a JSON `null` on which the property access `entry.expiresAt` throws a
  `TypeError`; the surrounding `try`/`catch` then abandons the restore
  loop, keeping the entries already inserted.
-/

namespace SmartCacheProof

/-! ### JavaScript value and key model -/

/-- JS values stored in the cache for the persistence claims: the
integer fragment of numbers, strings and booleans. -/
inductive JVal where
  | num (n : Int)
  | str (s : String)
  | bool (b : Bool)
  deriving DecidableEq

/-- JS cache keys (`SerializableKey = string | number | boolean`). -/
inductive JKey where
  | str (s : String)
  | num (n : Int)
  | bool (b : Bool)
  deriving DecidableEq

/-- Numeric value of a decimal digit character. -/
def digitVal? (c : Char) : Option Nat :=
  if '0' ≤ c ∧ c ≤ '9' then some (c.toNat - 48) else none

/-- Left-to-right accumulation of decimal digits; `none` on the first
non-digit character. -/
def decDigitsAux : List Char → Nat → Option Nat
  | [], acc => some acc
  | c :: cs, acc =>
    match digitVal? c with
    | some d => decDigitsAux cs (acc * 10 + d)
    | none => none

/-- Parse a nonempty all-digit character list as a natural number. -/
def decDigits? (cs : List Char) : Option Nat :=
  match cs with
  | [] => none
  | _ :: _ => decDigitsAux cs 0

/-- Canonical decimal digits of `n`, most significant first, computed
with structural fuel so that the kernel can evaluate it. -/
def natChars (fuel n : Nat) : List Char :=
  match fuel with
  | 0 => []
  | fuel + 1 =>
    if n < 10 then [Nat.digitChar n]
    else natChars fuel (n / 10) ++ [Nat.digitChar (n % 10)]

/-- Canonical decimal rendering of a natural number, as produced by JS
`String(n)` for integers. -/
def natToString (n : Nat) : String :=
  ⟨natChars (n + 1) n⟩

/-- JS `String(n)` on the integer fragment (`String(-0)` is `"0"`). -/
def intToString (n : Int) : String :=
  if n < 0 then "-" ++ natToString n.natAbs else natToString n.natAbs

/-- JS `Number(s)` restricted to the integer fragment: `Number("") = 0`,
an optional sign followed by one or more decimal digits parses to the
corresponding integer, and everything else is `NaN` (`none`). -/
def jsNumber? (s : String) : Option Int :=
  match s.data with
  | [] => some 0
  | c :: cs =>
    if c = '-' then (decDigits? cs).map (fun m => -(m : Int))
    else if c = '+' then (decDigits? cs).map (fun m => (m : Int))
    else (decDigits? (c :: cs)).map (fun m => (m : Int))

/-! ### JS `Map` model: association lists in insertion order -/

section AssocOps

variable {K : Type} {E : Type} [DecidableEq K]

/-- `Map.prototype.get`. -/
def mapFind? : List (K × E) → K → Option E
  | [], _ => none
  | (k', e) :: rest, k => if k' = k then some e else mapFind? rest k

/-- `Map.prototype.has`. -/
def mapHas (m : List (K × E)) (k : K) : Bool :=
  (mapFind? m k).isSome

/-- `Map.prototype.set`: replaces in place (keeping insertion order) if
the key is present, appends otherwise. -/
def mapSet : List (K × E) → K → E → List (K × E)
  | [], k, e => [(k, e)]
  | (k', e') :: rest, k, e =>
    if k' = k then (k, e) :: rest else (k', e') :: mapSet rest k e

/-- `Map.prototype.delete` (keys are unique in a JS `Map`, so removing
the first binding removes the binding). -/
def mapDelete : List (K × E) → K → List (K × E)
  | [], _ => []
  | (k', e') :: rest, k => if k' = k then rest else (k', e') :: mapDelete rest k

/-- The keys of the map, in insertion order. -/
def keysOf (m : List (K × E)) : List K :=
  m.map Prod.fst

end AssocOps

/-! ### Shared persistence model -/

/-- One entry of the parsed persisted blob: either a well-formed entry
object, or a JSON `null`, on which the restore loop's property access
`entry.expiresAt` throws a `TypeError`. -/
inductive BlobEntry (E : Type) where
  | ok (e : E)
  | null
  deriving DecidableEq

/-- The parsed persisted blob: the string-keyed entries of the JSON
object in iteration order (keys of a JSON object are distinct). -/
abbrev Blob (E : Type) := List (String × BlobEntry E)

/-- What `localStorage.getItem` + `JSON.parse` yields at construction:
no stored blob, a blob on which `JSON.parse` throws, or a parsed blob. -/
inductive Stored (E : Type) where
  | absent
  | corrupt
  | blob (entries : Blob E)
  deriving DecidableEq

/-- JS `String(key)` for a serializable cache key. -/
def jkeyToString : JKey → String
  | .str s => s
  | .num n => intToString n
  | .bool b => if b then "true" else "false"

/-!
### Implementation `V2`: `src/hw1/c3/v2/SmartCache.ts`

`map : Map<K, LRUNode<K, V>>` is an association list of entries in
insertion order (the node payload `value`/`expiresAt` lives in the map,
the linked-list position is the index of the key in `lru`). `maxSize`
is `options.maxSize ?? Infinity` (`none` = `Infinity`), `defaultTTL` is
optional.
-/

namespace V2

/-- Node payload: `value` and `expiresAt` of an `LRUNode` (also the
`SerializedEntry` shape written to storage). -/
structure Entry (V : Type) where
  value : V
  expiresAt : Option Int
  deriving DecidableEq

/-- In-memory cache state. -/
structure State (K V : Type) where
  map : List (K × Entry V)
  lru : List K
  maxSize : Option Nat
  defaultTTL : Option Int
  deriving DecidableEq

variable {K V : Type} [DecidableEq K]

/-- `isExpired`: `node.expiresAt !== null && Date.now() > node.expiresAt`. -/
def isExpired (now : Int) (e : Entry V) : Bool :=
  match e.expiresAt with
  | none => false
  | some t => now > t

/-- Constructor state before any restore (`maxSize ?? Infinity`). -/
def construct (maxSize : Option Nat) (defaultTTL : Option Int) : State K V :=
  ⟨[], [], maxSize, defaultTTL⟩

/-- `this.map.size >= this.maxSize` (`Infinity` compares `false`). -/
def atCapacity (s : State K V) : Bool :=
  match s.maxSize with
  | none => false
  | some m => s.map.length ≥ m

/-- `DoublyLinkedList.moveToFront`: no-op when the node is the head,
otherwise unlink and relink at the front. -/
def moveToFront (l : List K) (k : K) : List K :=
  if l.head? = some k then l else k :: l.erase k

/-- Remove `k` from both structures (interior of `delete`/`cleanExpired`). -/
def deleteRaw (s : State K V) (k : K) : State K V :=
  { s with map := mapDelete s.map k, lru := s.lru.erase k }

/-- Keys of currently expired entries, in map iteration order
(`cleanExpired`'s `keysToDelete`). -/
def expiredKeys (now : Int) (s : State K V) : List K :=
  keysOf (s.map.filter (fun p => isExpired now p.2))

/-- `cleanExpired`: delete every currently expired entry. -/
def cleanExpired (now : Int) (s : State K V) : State K V :=
  (expiredKeys now s).foldl deleteRaw s

/-- `evictLRU`: purge all expired entries; if still at capacity, remove
the recency-list tail and its map entry. -/
def evictLRU (now : Int) (s : State K V) : State K V :=
  let s1 := cleanExpired now s
  if atCapacity s1 then
    match s1.lru.getLast? with
    | some k => { s1 with lru := s1.lru.dropLast, map := mapDelete s1.map k }
    | none => s1
  else s1

/-- `set(key, value, ttlMs?)`. -/
def set (now : Int) (k : K) (v : V) (ttlMs : Option Int) (s : State K V) :
    State K V :=
  let ttl := match ttlMs with
    | some t => some t
    | none => s.defaultTTL
  let expiresAt := match ttl with
    | some t => some (now + t)
    | none => none
  match mapFind? s.map k with
  | some _ =>
    { s with map := mapSet s.map k ⟨v, expiresAt⟩, lru := moveToFront s.lru k }
  | none =>
    let s1 := if atCapacity s then evictLRU now s else s
    { s1 with map := mapSet s1.map k ⟨v, expiresAt⟩, lru := k :: s1.lru }

/-- `delete(key)`. -/
def delete (k : K) (s : State K V) : State K V :=
  match mapFind? s.map k with
  | some _ => deleteRaw s k
  | none => s

/-- `get(key)`: result value together with the post-state. -/
def get (now : Int) (k : K) (s : State K V) : Option V × State K V :=
  match mapFind? s.map k with
  | none => (none, s)
  | some e =>
    if isExpired now e then (none, delete k s)
    else (some e.value, { s with lru := moveToFront s.lru k })

/-- `has(key)`: result together with the post-state. -/
def has (now : Int) (k : K) (s : State K V) : Bool × State K V :=
  match mapFind? s.map k with
  | none => (false, s)
  | some e => if isExpired now e then (false, delete k s) else (true, s)

/-- `size()`: purge expired entries, then count. -/
def size (now : Int) (s : State K V) : Nat × State K V :=
  let s1 := cleanExpired now s
  (s1.map.length, s1)

/-- `clear()`. -/
def clear (s : State K V) : State K V :=
  { s with map := [], lru := [] }

/-- Key decoding on restore:
`!isNaN(Number(keyStr)) ? Number(keyStr) : keyStr` (no canonical-form
check and no boolean case). -/
def decodeKey (ks : String) : JKey :=
  match jsNumber? ks with
  | some n => .num n
  | none => .str ks

/-- `syncToStorage`'s payload: every non-expired entry, keyed by
`String(key)`, in map iteration order. -/
def serialize (now : Int) (s : State JKey V) : Blob (Entry V) :=
  s.map.filterMap (fun p =>
    if isExpired now p.2 then none
    else some (jkeyToString p.1, BlobEntry.ok p.2))

/-- Body of the `loadFromStorage` restore loop.  A `null` entry throws
on `entry.expiresAt`, so the `catch` abandons the loop, keeping the
entries already inserted. -/
def restoreLoop (now : Int) : Blob (Entry V) → State JKey V → State JKey V
  | [], s => s
  | (_, BlobEntry.null) :: _, s => s
  | (ks, BlobEntry.ok e) :: rest, s =>
    if isExpired now e then restoreLoop now rest s
    else
      restoreLoop now rest
        { s with map := mapSet s.map (decodeKey ks) e,
                 lru := decodeKey ks :: s.lru }

/-- `loadFromStorage`, run by the constructor when persistence is on. -/
def loadFromStorage (now : Int) (st : Stored (Entry V)) (s : State JKey V) :
    State JKey V :=
  match st with
  | .absent => s
  | .corrupt => s
  | .blob es => restoreLoop now es s

end V2

/-!
### Implementation `P1`: `src/unnamed/part_001` (compiled: `part_003`)

`cache : Map<K, CacheEntry<V>>` holds the entries; the `lruMap` of
nodes and their links are modelled by the key list `lru`, head (most
recently used) first. `maxSize` is required; `defaultTTL` is
`options.defaultTTL ?? 0`, where `0` means "no default TTL".
-/

namespace P1

/-- `CacheEntry`: value, expiry and the (diagnostic) `lastUsed` stamp. -/
structure Entry (V : Type) where
  value : V
  expiresAt : Option Int
  lastUsed : Int
  deriving DecidableEq

/-- In-memory cache state. -/
structure State (K V : Type) where
  cache : List (K × Entry V)
  lru : List K
  maxSize : Nat
  defaultTTL : Int
  deriving DecidableEq

variable {K V : Type} [DecidableEq K]

/-- `isExpired`: `expiresAt !== null && Date.now() > expiresAt`. -/
def isExpired (now : Int) (e : Entry V) : Bool :=
  match e.expiresAt with
  | none => false
  | some t => now > t

/-- Constructor state before any restore (`defaultTTL ?? 0`). -/
def construct (maxSize : Nat) (defaultTTL : Option Int) : State K V :=
  ⟨[], [], maxSize, defaultTTL.getD 0⟩

/-- `delete(key)`: remove from `cache` and from the LRU structures if
present, no-op otherwise. -/
def delete (k : K) (s : State K V) : State K V :=
  if mapHas s.cache k then
    { s with cache := mapDelete s.cache k, lru := s.lru.erase k }
  else s

/-- `removeFromLRU(key)`: unlink the node for `key` if one exists. -/
def removeFromLRU (k : K) (s : State K V) : State K V :=
  { s with lru := s.lru.erase k }

/-- `moveToFront(key)`: no-op if there is no node or it is the head. -/
def moveToFront (k : K) (s : State K V) : State K V :=
  if s.lru.head? = some k then s
  else if k ∈ s.lru then { s with lru := k :: s.lru.erase k }
  else s

/-- `evictLRU`: no-op on an empty list; otherwise delete the first
expired entry in `cache` iteration order and stop, or, if none is
expired, delete the tail (least recently used) key. -/
def evictLRU (now : Int) (s : State K V) : State K V :=
  if s.lru = [] then s
  else
    match s.cache.find? (fun p => isExpired now p.2) with
    | some p => delete p.1 s
    | none =>
      match s.lru.getLast? with
      | some k => delete k s
      | none => s

/-- First phase of `set`: `if (this.cache.has(key)) this.removeFromLRU(key)`. -/
def unlinkStep (k : K) (s : State K V) : State K V :=
  if mapHas s.cache k then removeFromLRU k s else s

/-- Second phase of `set`: evict when a brand-new key arrives at capacity
(`this.cache.size >= maxSize && !this.cache.has(key)`). -/
def evictStep (now : Int) (k : K) (s1 : State K V) : State K V :=
  if s1.cache.length ≥ s1.maxSize ∧ mapHas s1.cache k = false then
    evictLRU now s1
  else s1

/-- Third phase of `set`: compute the expiry (`ttl > 0` gives
`now + ttl`, otherwise no expiry), store the entry and link a fresh
front node. -/
def storeStep (now : Int) (k : K) (v : V) (ttlMs : Option Int)
    (s2 : State K V) : State K V :=
  let ttl := ttlMs.getD s2.defaultTTL
  let expiresAt := if ttl > 0 then some (now + ttl) else none
  { s2 with cache := mapSet s2.cache k ⟨v, expiresAt, now⟩, lru := k :: s2.lru }

/-- `set(key, value, ttlMs?)`: unlink an existing node, evict if a new
key arrives at capacity, then store the entry. -/
def set (now : Int) (k : K) (v : V) (ttlMs : Option Int) (s : State K V) :
    State K V :=
  storeStep now k v ttlMs (evictStep now k (unlinkStep k s))

/-- `get(key)`: result value together with the post-state (`lastUsed`
refresh and promotion on a hit, lazy delete on an expired hit). -/
def get (now : Int) (k : K) (s : State K V) : Option V × State K V :=
  match mapFind? s.cache k with
  | none => (none, s)
  | some e =>
    if isExpired now e then (none, delete k s)
    else
      (some e.value,
        moveToFront k
          { s with cache := mapSet s.cache k ⟨e.value, e.expiresAt, now⟩ })

/-- `has(key)`: result together with the post-state. -/
def has (now : Int) (k : K) (s : State K V) : Bool × State K V :=
  match mapFind? s.cache k with
  | none => (false, s)
  | some e => if isExpired now e then (false, delete k s) else (true, s)

/-- Keys of currently expired entries, in `cache` iteration order. -/
def expiredKeys (now : Int) (s : State K V) : List K :=
  keysOf (s.cache.filter (fun p => isExpired now p.2))

/-- `cleanExpired`: `delete` every currently expired key. -/
def cleanExpired (now : Int) (s : State K V) : State K V :=
  (expiredKeys now s).foldl (fun st k => delete k st) s

/-- `size()`: purge expired entries, then count. -/
def size (now : Int) (s : State K V) : Nat × State K V :=
  let s1 := cleanExpired now s
  (s1.cache.length, s1)

/-- `clear()`. -/
def clear (s : State K V) : State K V :=
  { s with cache := [], lru := [] }

/-- `parseKey`: `"true"`/`"false"` become booleans; a string that
`Number` parses and that round-trips through `String` becomes that
number; everything else stays a string. -/
def parseKey (ks : String) : JKey :=
  if ks = "true" then .bool true
  else if ks = "false" then .bool false
  else
    match jsNumber? ks with
    | some n => if intToString n = ks then .num n else .str ks
    | none => .str ks

/-- `saveToStorage`'s payload: every non-expired entry (including its
`lastUsed` stamp), keyed by `String(key)`, in iteration order. -/
def serialize (now : Int) (s : State JKey V) : Blob (Entry V) :=
  s.cache.filterMap (fun p =>
    if isExpired now p.2 then none
    else some (jkeyToString p.1, BlobEntry.ok p.2))

/-- Body of the `loadFromStorage` restore loop: parse the key, skip
expired entries, insert the rest verbatim.  A `null` entry throws on
`entry.expiresAt`, so the `catch` abandons the loop, keeping the
entries already inserted. -/
def restoreLoop (now : Int) : Blob (Entry V) → State JKey V → State JKey V
  | [], s => s
  | (_, BlobEntry.null) :: _, s => s
  | (ks, BlobEntry.ok e) :: rest, s =>
    if isExpired now e then restoreLoop now rest s
    else
      restoreLoop now rest
        { s with cache := mapSet s.cache (parseKey ks) e,
                 lru := parseKey ks :: s.lru }

/-- `loadFromStorage`, run by the constructor when persistence is on. -/
def loadFromStorage (now : Int) (st : Stored (Entry V)) (s : State JKey V) :
    State JKey V :=
  match st with
  | .absent => s
  | .corrupt => s
  | .blob es => restoreLoop now es s

end P1

/-! ### Derived notions used by the statements -/

/-- Keys of `s` whose entries are live (not expired) at `now`, in
recency order: the Recency Index restricted to live entries. -/
def v2_liveLru {K V : Type} [DecidableEq K] (now : Int) (s : V2.State K V) :
    List K :=
  s.lru.filter (fun j => decide (j ∉ V2.expiredKeys now s))

/-- Decoded keys of a blob, in order, under `V2` key decoding. -/
def v2_blobKeys {V : Type} (es : Blob (V2.Entry V)) : List JKey :=
  es.map (fun p => V2.decodeKey p.1)

/-- Decoded keys of a blob, in order, under `P1.parseKey`. -/
def p1_blobKeys {V : Type} (es : Blob (P1.Entry V)) : List JKey :=
  es.map (fun p => P1.parseKey p.1)

/-- Number of blob entries that are well-formed and not expired at
`now` — the entries `V2.loadFromStorage` restores. -/
def v2_liveCount {V : Type} (now : Int) (es : Blob (V2.Entry V)) : Nat :=
  (es.filter (fun p =>
    match p.2 with
    | BlobEntry.ok e => !V2.isExpired now e
    | BlobEntry.null => false)).length

/-- Number of blob entries that are well-formed and not expired at
`now` — the entries `P1.loadFromStorage` restores. -/
def p1_liveCount {V : Type} (now : Int) (es : Blob (P1.Entry V)) : Nat :=
  (es.filter (fun p =>
    match p.2 with
    | BlobEntry.ok e => !P1.isExpired now e
    | BlobEntry.null => false)).length

/-! ### Structural lockstep invariant -/

/-- Lockstep invariant of `V2` (spec §3): map keys are unique, there is
exactly one recency node per key, and the Store Map and the Recency
Index agree on the key set. -/
def V2.Wf {K V : Type} [DecidableEq K] (s : V2.State K V) : Prop :=
  (keysOf s.map).Nodup ∧ s.lru.Nodup ∧
    ∀ k, mapHas s.map k = true ↔ k ∈ s.lru

/-- Lockstep invariant of `P1`, same shape. -/
def P1.Wf {K V : Type} [DecidableEq K] (s : P1.State K V) : Prop :=
  (keysOf s.cache).Nodup ∧ s.lru.Nodup ∧
    ∀ k, mapHas s.cache k = true ↔ k ∈ s.lru

/-- One recorded `set` call (used to state the capacity invariant over
arbitrary call sequences). -/
structure SetCall (K V : Type) where
  now : Int
  key : K
  value : V
  ttl : Option Int

/-- Apply a sequence of `set` calls to a `V2` cache. -/
def v2_applySets {K V : Type} [DecidableEq K] (calls : List (SetCall K V))
    (s : V2.State K V) : V2.State K V :=
  calls.foldl (fun st c => V2.set c.now c.key c.value c.ttl st) s

/-- Apply a sequence of `set` calls to a `P1` cache. -/
def p1_applySets {K V : Type} [DecidableEq K] (calls : List (SetCall K V))
    (s : P1.State K V) : P1.State K V :=
  calls.foldl (fun st c => P1.set c.now c.key c.value c.ttl st) s

/-- Concrete LRU-promotion scenario (`V2`): capacity 3, insert a, b, c,
read a, insert d. -/
def c5v2state : V2.State String Nat :=
  V2.set 0 "d" 4 none
    (V2.get 0 "a"
      (V2.set 0 "c" 3 none
        (V2.set 0 "b" 2 none
          (V2.set 0 "a" 1 none (V2.construct (some 3) none))))).2

/-- Concrete LRU-promotion scenario (`P1`). -/
def c5p1state : P1.State String Nat :=
  P1.set 0 "d" 4 none
    (P1.get 0 "a"
      (P1.set 0 "c" 3 none
        (P1.set 0 "b" 2 none
          (P1.set 0 "a" 1 none (P1.construct 3 none))))).2

/-- Cache holding exactly x ↦ 100, y ↦ "s", z ↦ true, never expiring
(`V2`, persistence round-trip scenario). -/
def c6v2orig : V2.State JKey JVal :=
  V2.set 0 (JKey.str "z") (JVal.bool true) none
    (V2.set 0 (JKey.str "y") (JVal.str "s") none
      (V2.set 0 (JKey.str "x") (JVal.num 100) none
        (V2.construct none none)))

/-- Fresh `V2` instance constructed against the same persistence name. -/
def c6v2restored : V2.State JKey JVal :=
  V2.loadFromStorage 5 (Stored.blob (V2.serialize 5 c6v2orig))
    (V2.construct none none)

/-- Cache holding exactly x ↦ 100, y ↦ "s", z ↦ true (`P1`). -/
def c6p1orig : P1.State JKey JVal :=
  P1.set 0 (JKey.str "z") (JVal.bool true) none
    (P1.set 0 (JKey.str "y") (JVal.str "s") none
      (P1.set 0 (JKey.str "x") (JVal.num 100) none
        (P1.construct 10 none)))

/-- Fresh `P1` instance constructed against the same persistence name. -/
def c6p1restored : P1.State JKey JVal :=
  P1.loadFromStorage 5 (Stored.blob (P1.serialize 5 c6p1orig))
    (P1.construct 10 none)

/-- Blob whose two distinct string keys "1" and "01" both decode to the
number key 1 under `V2` decoding. -/
def c10blob : Blob (V2.Entry JVal) :=
  [("1", BlobEntry.ok ⟨JVal.num 10, none⟩),
   ("01", BlobEntry.ok ⟨JVal.num 20, none⟩)]

/-! ## Theorems -/

/-! #### Round-trip lemmas for the decimal model -/

theorem digitVal?_digitChar {d : Nat} (h : d < 10) :
    digitVal? (Nat.digitChar d) = some d := by
  interval_cases d <;> decide

theorem digitChar_isDec {d : Nat} (h : d < 10) :
    '0' ≤ Nat.digitChar d ∧ Nat.digitChar d ≤ '9' := by
  interval_cases d <;> decide

theorem decDigitsAux_append (xs ys : List Char) (a : Nat) :
    decDigitsAux (xs ++ ys) a =
      (decDigitsAux xs a).bind (fun r => decDigitsAux ys r) := by
  induction xs generalizing a with
  | nil => rfl
  | cons c cs ih =>
    simp only [List.cons_append, decDigitsAux]
    cases digitVal? c with
    | none => rfl
    | some d => exact ih _

theorem natChars_ne_nil {fuel n : Nat} (h : n < fuel) :
    natChars fuel n ≠ [] := by
  cases fuel with
  | zero => omega
  | succ fuel =>
    simp only [natChars]
    split
    · simp
    · simp

theorem mem_natChars_isDec {fuel n : Nat} (h : n < fuel) :
    ∀ c ∈ natChars fuel n, '0' ≤ c ∧ c ≤ '9' := by
  induction fuel generalizing n with
  | zero => omega
  | succ fuel ih =>
    intro c hc
    simp only [natChars] at hc
    split at hc
    · next hn =>
      simp only [List.mem_singleton] at hc
      subst hc
      exact digitChar_isDec hn
    · next hn =>
      rcases List.mem_append.mp hc with hc | hc
      · exact ih (by omega) c hc
      · simp only [List.mem_singleton] at hc
        subst hc
        exact digitChar_isDec (Nat.mod_lt _ (by norm_num))

theorem decDigitsAux_natChars {fuel n : Nat} (h : n < fuel) :
    decDigitsAux (natChars fuel n) 0 = some n := by
  induction fuel generalizing n with
  | zero => omega
  | succ fuel ih =>
    simp only [natChars]
    split
    · next hn =>
      simp [decDigitsAux, digitVal?_digitChar hn]
    · next hn =>
      push_neg at hn
      have hdiv : n / 10 < fuel := by
        have h1 : n / 10 < n := Nat.div_lt_self (by omega) (by norm_num)
        omega
      rw [decDigitsAux_append, ih hdiv]
      simp [decDigitsAux, digitVal?_digitChar (Nat.mod_lt n (show 0 < 10 by norm_num))]
      omega

theorem decDigits?_natChars {fuel n : Nat} (h : n < fuel) :
    decDigits? (natChars fuel n) = some n := by
  have hne := natChars_ne_nil h
  unfold decDigits?
  split
  · next heq => exact absurd heq hne
  · exact decDigitsAux_natChars h

theorem natToString_data (n : Nat) :
    (natToString n).data = natChars (n + 1) n := rfl

theorem jsNumber?_natToString (n : Nat) :
    jsNumber? (natToString n) = some (n : Int) := by
  unfold jsNumber?
  rw [natToString_data]
  cases hcs : natChars (n + 1) n with
  | nil => exact absurd hcs (natChars_ne_nil (Nat.lt_succ_self n))
  | cons c cs =>
    have hc : '0' ≤ c ∧ c ≤ '9' := by
      refine mem_natChars_isDec (Nat.lt_succ_self n) c ?_
      rw [hcs]; exact List.mem_cons_self _ _
    have hc1 : ¬ (c = '-') := by
      rintro rfl
      rcases hc with ⟨h1, _⟩
      exact absurd h1 (by decide)
    have hc2 : ¬ (c = '+') := by
      rintro rfl
      rcases hc with ⟨h1, _⟩
      exact absurd h1 (by decide)
    simp only [hc1, hc2, if_false]
    rw [← hcs, decDigits?_natChars (Nat.lt_succ_self n)]
    rfl

theorem data_append (s t : String) : (s ++ t).data = s.data ++ t.data := rfl

theorem jsNumber?_dash (t : String) :
    jsNumber? ("-" ++ t) = (decDigits? t.data).map (fun m => -(m : Int)) := rfl

theorem jsNumber?_intToString (n : Int) :
    jsNumber? (intToString n) = some n := by
  unfold intToString
  split
  · next hneg =>
    rw [jsNumber?_dash, natToString_data, decDigits?_natChars (Nat.lt_succ_self _)]
    show some (-(n.natAbs : Int)) = some n
    congr 1
    omega
  · next hpos =>
    rw [jsNumber?_natToString]
    congr 1
    omega

theorem natToString_head_isDec (n : Nat) :
    ∀ c ∈ (natToString n).data, '0' ≤ c ∧ c ≤ '9' := by
  rw [natToString_data]
  exact mem_natChars_isDec (Nat.lt_succ_self n)

/-- The canonical rendering of an integer is never the string "true". -/
theorem intToString_ne_true (n : Int) : intToString n ≠ "true" := by
  intro h
  unfold intToString at h
  split at h
  · have : ("-" ++ natToString n.natAbs).data = "true".data := by rw [h]
    rw [data_append] at this
    have hm : ("-" : String).data = ['-'] := rfl
    rw [hm] at this
    have : '-' = 't' := by
      have := congrArg List.head? this
      simpa using this
    exact absurd this (by decide)
  · have hd := natToString_head_isDec n.natAbs
    have : "true".data = ['t', 'r', 'u', 'e'] := rfl
    rw [h, this] at hd
    have := hd 't' (by simp)
    exact absurd this (by decide)

/-- The canonical rendering of an integer is never the string "false". -/
theorem intToString_ne_false (n : Int) : intToString n ≠ "false" := by
  intro h
  unfold intToString at h
  split at h
  · have : ("-" ++ natToString n.natAbs).data = "false".data := by rw [h]
    rw [data_append] at this
    have hm : ("-" : String).data = ['-'] := rfl
    rw [hm] at this
    have : '-' = 'f' := by
      have := congrArg List.head? this
      simpa using this
    exact absurd this (by decide)
  · have hd := natToString_head_isDec n.natAbs
    have : "false".data = ['f', 'a', 'l', 's', 'e'] := rfl
    rw [h, this] at hd
    have := hd 'f' (by simp)
    exact absurd this (by decide)


section AssocLemmas

variable {K : Type} {E : Type} [DecidableEq K]

theorem keysOf_nil : keysOf ([] : List (K × E)) = [] := rfl

theorem keysOf_cons (p : K × E) (m : List (K × E)) :
    keysOf (p :: m) = p.1 :: keysOf m := rfl

theorem mapHas_iff_mem_keysOf (m : List (K × E)) (k : K) :
    mapHas m k = true ↔ k ∈ keysOf m := by
  induction m with
  | nil => simp [mapHas, mapFind?, keysOf]
  | cons p rest ih =>
    obtain ⟨k', e⟩ := p
    by_cases hk : k' = k
    · subst hk
      simp [mapHas, mapFind?, keysOf]
    · simp only [mapHas, mapFind?, if_neg hk, keysOf_cons, List.mem_cons]
      rw [← mapHas, ih]
      simp [Ne.symm hk]

theorem mapFind?_eq_none_iff (m : List (K × E)) (k : K) :
    mapFind? m k = none ↔ k ∉ keysOf m := by
  rw [← mapHas_iff_mem_keysOf]
  unfold mapHas
  cases mapFind? m k <;> simp

theorem mapFind?_mapSet (m : List (K × E)) (k j : K) (e : E) :
    mapFind? (mapSet m k e) j = if k = j then some e else mapFind? m j := by
  induction m with
  | nil =>
    by_cases hj : k = j <;> simp [mapSet, mapFind?, hj]
  | cons p rest ih =>
    obtain ⟨k', e'⟩ := p
    by_cases hk : k' = k
    · subst hk
      by_cases hj : k' = j <;> simp [mapSet, mapFind?, hj]
    · by_cases hj : k' = j
      · subst hj
        have : ¬ (k = k') := fun h => hk h.symm
        simp [mapSet, mapFind?, hk, this]
      · simp [mapSet, mapFind?, hk, hj, ih]

theorem keysOf_mapSet_of_has (m : List (K × E)) (k : K) (e : E)
    (h : mapHas m k = true) : keysOf (mapSet m k e) = keysOf m := by
  induction m with
  | nil => simp [mapHas, mapFind?] at h
  | cons p rest ih =>
    obtain ⟨k', e'⟩ := p
    by_cases hk : k' = k
    · subst hk
      simp [mapSet, keysOf_cons]
    · simp only [mapHas, mapFind?, if_neg hk] at h
      simp only [mapSet, if_neg hk, keysOf_cons, ih h]

theorem keysOf_mapSet_of_not_has (m : List (K × E)) (k : K) (e : E)
    (h : mapHas m k = false) : keysOf (mapSet m k e) = keysOf m ++ [k] := by
  induction m with
  | nil => simp [mapSet, keysOf]
  | cons p rest ih =>
    obtain ⟨k', e'⟩ := p
    by_cases hk : k' = k
    · subst hk
      simp [mapHas, mapFind?] at h
    · simp only [mapHas, mapFind?, if_neg hk] at h
      simp only [mapSet, if_neg hk, keysOf_cons, ih h, List.cons_append]

theorem length_mapSet_of_has (m : List (K × E)) (k : K) (e : E)
    (h : mapHas m k = true) : (mapSet m k e).length = m.length := by
  have := congrArg List.length (keysOf_mapSet_of_has m k e h)
  simpa [keysOf] using this

theorem length_mapSet_of_not_has (m : List (K × E)) (k : K) (e : E)
    (h : mapHas m k = false) : (mapSet m k e).length = m.length + 1 := by
  have := congrArg List.length (keysOf_mapSet_of_not_has m k e h)
  simpa [keysOf] using this

theorem mapFind?_cons_self (k : K) (e : E) (m : List (K × E)) :
    mapFind? ((k, e) :: m) k = some e := by
  simp [mapFind?]

theorem mapFind?_cons_ne {k' k : K} (e' : E) (m : List (K × E)) (h : k' ≠ k) :
    mapFind? ((k', e') :: m) k = mapFind? m k := by
  simp [mapFind?, h]

theorem mapDelete_cons_self (k : K) (e : E) (m : List (K × E)) :
    mapDelete ((k, e) :: m) k = m := by
  simp [mapDelete]

theorem mapDelete_cons_ne {k' k : K} (e' : E) (m : List (K × E)) (h : k' ≠ k) :
    mapDelete ((k', e') :: m) k = (k', e') :: mapDelete m k := by
  simp [mapDelete, h]

theorem keysOf_mapDelete (m : List (K × E)) (k : K) :
    keysOf (mapDelete m k) = (keysOf m).erase k := by
  induction m with
  | nil => rfl
  | cons p rest ih =>
    obtain ⟨k', e'⟩ := p
    by_cases hk : k' = k
    · subst hk
      rw [mapDelete_cons_self, keysOf_cons, List.erase_cons_head]
    · have hbeq : (k' == k) = false := by simp [hk]
      rw [mapDelete_cons_ne e' rest hk, keysOf_cons, keysOf_cons, List.erase_cons,
        hbeq, ih]
      simp

theorem length_keysOf (m : List (K × E)) : (keysOf m).length = m.length := by
  simp [keysOf]

theorem length_mapDelete_of_has (m : List (K × E)) (k : K)
    (h : mapHas m k = true) : (mapDelete m k).length + 1 = m.length := by
  have hm : k ∈ keysOf m := (mapHas_iff_mem_keysOf m k).mp h
  rw [← length_keysOf, ← length_keysOf m, keysOf_mapDelete]
  exact List.length_erase_add_one hm

theorem length_mapDelete_le (m : List (K × E)) (k : K) :
    (mapDelete m k).length ≤ m.length := by
  rw [← length_keysOf, ← length_keysOf m, keysOf_mapDelete]
  exact List.length_erase_le k _

theorem mapFind?_mapDelete (m : List (K × E)) (k j : K)
    (hnd : (keysOf m).Nodup) :
    mapFind? (mapDelete m k) j = if k = j then none else mapFind? m j := by
  induction m with
  | nil => simp [mapDelete, mapFind?]
  | cons p rest ih =>
    obtain ⟨k', e'⟩ := p
    rw [keysOf_cons, List.nodup_cons] at hnd
    obtain ⟨hk', hnd'⟩ := hnd
    by_cases hk : k' = k
    · subst hk
      by_cases hj : k' = j
      · subst hj
        rw [mapDelete_cons_self, if_pos rfl, mapFind?_eq_none_iff]
        exact hk'
      · rw [mapDelete_cons_self, if_neg hj, mapFind?_cons_ne e' rest hj]
    · by_cases hj : k' = j
      · subst hj
        have hkj : ¬ (k = k') := fun h => hk h.symm
        rw [mapDelete_cons_ne e' rest hk, mapFind?_cons_self, if_neg hkj,
          mapFind?_cons_self]
      · rw [mapDelete_cons_ne e' rest hk, mapFind?_cons_ne e' _ hj,
          mapFind?_cons_ne e' rest hj, ih hnd']

theorem nodup_keysOf_mapSet (m : List (K × E)) (k : K) (e : E)
    (hnd : (keysOf m).Nodup) : (keysOf (mapSet m k e)).Nodup := by
  cases hhas : mapHas m k with
  | true => rw [keysOf_mapSet_of_has m k e hhas]; exact hnd
  | false =>
    rw [keysOf_mapSet_of_not_has m k e hhas]
    have hk : k ∉ keysOf m := fun hmem =>
      by simp [(mapHas_iff_mem_keysOf m k).mpr hmem] at hhas
    simp [List.nodup_append, hnd, hk]

theorem nodup_keysOf_mapDelete (m : List (K × E)) (k : K)
    (hnd : (keysOf m).Nodup) : (keysOf (mapDelete m k)).Nodup := by
  rw [keysOf_mapDelete]
  exact hnd.erase k

theorem mapFind?_eq_some_mem {m : List (K × E)} {k : K} {e : E}
    (h : mapFind? m k = some e) : (k, e) ∈ m := by
  induction m with
  | nil => simp [mapFind?] at h
  | cons p rest ih =>
    obtain ⟨k', e'⟩ := p
    by_cases hk : k' = k
    · subst hk
      rw [mapFind?_cons_self] at h
      injection h with h1
      subst h1
      exact List.mem_cons_self _ _
    · rw [mapFind?_cons_ne e' rest hk] at h
      exact List.mem_cons_of_mem _ (ih h)

theorem mem_mapFind?_of_nodup {m : List (K × E)} {k : K} {e : E}
    (hnd : (keysOf m).Nodup) (h : (k, e) ∈ m) : mapFind? m k = some e := by
  induction m with
  | nil => simp at h
  | cons p rest ih =>
    obtain ⟨k', e'⟩ := p
    rw [keysOf_cons, List.nodup_cons] at hnd
    obtain ⟨hk', hnd'⟩ := hnd
    rcases List.mem_cons.mp h with h | h
    · injection h with h1 h2
      subst h1
      subst h2
      exact mapFind?_cons_self k e rest
    · have hne : k' ≠ k := by
        rintro rfl
        apply hk'
        unfold keysOf
        exact List.mem_map.mpr ⟨(k', e), h, rfl⟩
      rw [mapFind?_cons_ne e' rest hne]
      exact ih hnd' h

theorem foldl_erase_eq_filter (ks : List K) :
    ∀ l : List K, l.Nodup →
      ks.foldl List.erase l = l.filter (fun x => decide (x ∉ ks)) := by
  induction ks with
  | nil =>
    intro l _
    simp
  | cons k ks ih =>
    intro l h
    rw [List.foldl_cons, ih (l.erase k) (h.erase k), h.erase_eq_filter k,
      List.filter_filter]
    refine List.filter_congr ?_
    intro x _
    by_cases h1 : x = k <;> by_cases h2 : x ∈ ks <;> simp [h1, h2]

theorem mem_foldl_erase (ks l : List K) (hl : l.Nodup) (x : K) :
    x ∈ ks.foldl List.erase l ↔ x ∈ l ∧ x ∉ ks := by
  rw [foldl_erase_eq_filter ks l hl, List.mem_filter]
  simp

theorem nodup_foldl_erase (ks l : List K) (hl : l.Nodup) :
    (ks.foldl List.erase l).Nodup := by
  rw [foldl_erase_eq_filter ks l hl]
  exact hl.filter _

theorem keysOf_foldl_mapDelete (ks : List K) :
    ∀ m : List (K × E),
      keysOf (ks.foldl mapDelete m) = ks.foldl List.erase (keysOf m) := by
  induction ks with
  | nil => intro m; rfl
  | cons k ks ih =>
    intro m
    rw [List.foldl_cons, List.foldl_cons, ih, keysOf_mapDelete]

theorem nodup_keysOf_foldl_mapDelete (ks : List K) (m : List (K × E))
    (h : (keysOf m).Nodup) : (keysOf (ks.foldl mapDelete m)).Nodup := by
  rw [keysOf_foldl_mapDelete]
  exact nodup_foldl_erase _ _ h

theorem mapFind?_foldl_mapDelete (ks : List K) :
    ∀ (m : List (K × E)) (j : K), (keysOf m).Nodup →
      mapFind? (ks.foldl mapDelete m) j =
        if j ∈ ks then none else mapFind? m j := by
  induction ks with
  | nil => intro m j _; simp
  | cons k ks ih =>
    intro m j h
    rw [List.foldl_cons, ih (mapDelete m k) j (nodup_keysOf_mapDelete m k h),
      mapFind?_mapDelete m k j h]
    by_cases h1 : j ∈ ks
    · simp [h1]
    · by_cases h2 : k = j
      · subst h2
        simp [h1]
      · have h3 : ¬ j = k := fun hh => h2 hh.symm
        simp [h1, h2, h3]

end AssocLemmas

section V2Lemmas

variable {K V : Type} [DecidableEq K]

open V2

theorem v2_foldl_deleteRaw (ks : List K) :
    ∀ s : State K V, ks.foldl deleteRaw s =
      { s with map := ks.foldl mapDelete s.map,
               lru := ks.foldl List.erase s.lru } := by
  induction ks with
  | nil => intro s; rfl
  | cons k ks ih =>
    intro s
    rw [List.foldl_cons, ih]
    rfl

theorem v2_cleanExpired_eq (now : Int) (s : State K V) :
    cleanExpired now s =
      { s with map := (expiredKeys now s).foldl mapDelete s.map,
               lru := (expiredKeys now s).foldl List.erase s.lru } :=
  v2_foldl_deleteRaw _ s

theorem v2_mem_expiredKeys (now : Int) (s : State K V)
    (hnd : (keysOf s.map).Nodup) (k : K) :
    k ∈ expiredKeys now s ↔
      ∃ e, mapFind? s.map k = some e ∧ isExpired now e = true := by
  unfold expiredKeys keysOf
  simp only [List.mem_map, List.mem_filter]
  constructor
  · rintro ⟨⟨k', e⟩, ⟨hmem, hexp⟩, rfl⟩
    exact ⟨e, mem_mapFind?_of_nodup hnd hmem, hexp⟩
  · rintro ⟨e, hfind, hexp⟩
    exact ⟨(k, e), ⟨mapFind?_eq_some_mem hfind, hexp⟩, rfl⟩

theorem v2_cleanExpired_find (now : Int) (s : State K V)
    (hnd : (keysOf s.map).Nodup) (j : K) :
    mapFind? (cleanExpired now s).map j =
      (mapFind? s.map j).filter (fun e => !isExpired now e) := by
  rw [v2_cleanExpired_eq]
  show mapFind? ((expiredKeys now s).foldl mapDelete s.map) j = _
  rw [mapFind?_foldl_mapDelete _ _ _ hnd]
  by_cases hj : j ∈ expiredKeys now s
  · obtain ⟨e, hfind, hexp⟩ := (v2_mem_expiredKeys now s hnd j).mp hj
    rw [if_pos hj, hfind]
    simp [Option.filter, hexp]
  · rw [if_neg hj]
    cases hfind : mapFind? s.map j with
    | none => rfl
    | some e =>
      have hexp : isExpired now e = false := by
        by_contra hc
        exact hj ((v2_mem_expiredKeys now s hnd j).mpr
          ⟨e, hfind, by revert hc; cases isExpired now e <;> simp⟩)
      simp [Option.filter, hexp]

theorem v2_wf_cleanExpired (now : Int) (s : State K V) (h : Wf s) :
    Wf (cleanExpired now s) := by
  obtain ⟨h1, h2, h3⟩ := h
  rw [v2_cleanExpired_eq]
  refine ⟨nodup_keysOf_foldl_mapDelete _ _ h1, nodup_foldl_erase _ _ h2, ?_⟩
  intro k
  show mapHas ((expiredKeys now s).foldl mapDelete s.map) k = true ↔
    k ∈ (expiredKeys now s).foldl List.erase s.lru
  rw [mem_foldl_erase _ _ h2]
  unfold mapHas
  rw [mapFind?_foldl_mapDelete _ _ _ h1]
  by_cases hk : k ∈ expiredKeys now s
  · simp [hk]
  · rw [if_neg hk]
    rw [← mapHas, h3]
    simp [hk]

theorem v2_cleanExpired_length_le (now : Int) (s : State K V) :
    (cleanExpired now s).map.length ≤ s.map.length := by
  rw [v2_cleanExpired_eq]
  show ((expiredKeys now s).foldl mapDelete s.map).length ≤ _
  generalize expiredKeys now s = ks
  induction ks generalizing s with
  | nil => simp
  | cons k ks ih =>
    rw [List.foldl_cons]
    calc (ks.foldl mapDelete (mapDelete s.map k)).length
        ≤ (mapDelete s.map k).length := by
          have := ih (s := { s with map := mapDelete s.map k })
          simpa using this
      _ ≤ s.map.length := length_mapDelete_le _ _

theorem v2_moveToFront_mem (l : List K) (k j : K) (hnd : l.Nodup)
    (hk : k ∈ l) : j ∈ moveToFront l k ↔ j ∈ l := by
  unfold moveToFront
  split
  · exact Iff.rfl
  · rw [List.mem_cons, hnd.mem_erase_iff]
    by_cases hj : j = k
    · subst hj
      simp [hk]
    · simp [hj]

theorem v2_moveToFront_nodup (l : List K) (k : K) (hnd : l.Nodup) :
    (moveToFront l k).Nodup := by
  unfold moveToFront
  split
  · exact hnd
  · exact List.nodup_cons.mpr ⟨hnd.not_mem_erase, hnd.erase k⟩

theorem v2_moveToFront_length (l : List K) (k : K) (hnd : l.Nodup)
    (hk : k ∈ l) : (moveToFront l k).length = l.length := by
  unfold moveToFront
  split
  · rfl
  · show (l.erase k).length + 1 = l.length
    exact List.length_erase_add_one hk

theorem v2_wf_deleteRaw (s : State K V) (k : K) (h : Wf s) :
    Wf (deleteRaw s k) := by
  obtain ⟨h1, h2, h3⟩ := h
  refine ⟨?_, h2.erase k, ?_⟩
  · show (keysOf (mapDelete s.map k)).Nodup
    exact nodup_keysOf_mapDelete _ _ h1
  · intro j
    show mapHas (mapDelete s.map k) j = true ↔ j ∈ s.lru.erase k
    unfold mapHas
    rw [mapFind?_mapDelete _ _ _ h1, h2.mem_erase_iff]
    by_cases hj : k = j
    · subst hj
      simp
    · rw [if_neg hj, ← mapHas, h3]
      have hjk : ¬ j = k := fun hh => hj hh.symm
      simp [hjk]

theorem v2_wf_delete (k : K) (s : State K V) (h : Wf s) :
    Wf (delete k s) := by
  unfold delete
  cases mapFind? s.map k with
  | none => exact h
  | some e => exact v2_wf_deleteRaw s k h

theorem v2_delete_not_has (k : K) (s : State K V) (h : Wf s) :
    mapHas (delete k s).map k = false := by
  obtain ⟨h1, _, _⟩ := h
  unfold delete
  cases hf : mapFind? s.map k with
  | none => simp [mapHas, hf]
  | some e =>
    show mapHas (mapDelete s.map k) k = false
    unfold mapHas
    rw [mapFind?_mapDelete _ _ _ h1, if_pos rfl]
    rfl

theorem v2_delete_lru (k : K) (s : State K V) (h : Wf s) :
    k ∉ (delete k s).lru := by
  obtain ⟨h1, h2, h3⟩ := h
  unfold delete
  cases hf : mapFind? s.map k with
  | none =>
    intro hmem
    have := (h3 k).mpr hmem
    simp [mapHas, hf] at this
  | some e =>
    exact h2.not_mem_erase

theorem getLast?_split (l : List K) (k : K) (h : l.getLast? = some k) :
    l = l.dropLast ++ [k] := by
  have hne : l ≠ [] := by rintro rfl; simp at h
  have h2 := List.dropLast_append_getLast hne
  rw [List.getLast?_eq_getLast l hne] at h
  injection h with h3
  rw [h3] at h2
  exact h2.symm

theorem mem_dropLast_iff (l : List K) (k : K) (hnd : l.Nodup)
    (h : l.getLast? = some k) (j : K) :
    j ∈ l.dropLast ↔ j ∈ l ∧ j ≠ k := by
  have hsplit := getLast?_split l k h
  have hk : k ∉ l.dropLast := by
    have hnd2 := hnd
    rw [hsplit, List.nodup_append] at hnd2
    obtain ⟨-, -, hdisj⟩ := hnd2
    intro hmem
    exact hdisj hmem (by simp)
  constructor
  · intro hj
    refine ⟨by rw [hsplit]; exact List.mem_append_left _ hj, ?_⟩
    rintro rfl
    exact hk hj
  · rintro ⟨hj, hne⟩
    rw [hsplit, List.mem_append] at hj
    rcases hj with hj | hj
    · exact hj
    · simp at hj
      exact absurd hj hne

theorem v2_wf_evictLRU (now : Int) (s : State K V) (h : Wf s) :
    Wf (evictLRU now s) := by
  simp only [evictLRU]
  have h1 := v2_wf_cleanExpired now s h
  split
  · split
    · next k hk =>
      obtain ⟨w1, w2, w3⟩ := h1
      refine ⟨nodup_keysOf_mapDelete _ _ w1,
        (List.dropLast_sublist _).nodup w2, ?_⟩
      intro j
      show mapHas (mapDelete (cleanExpired now s).map k) j = true ↔
        j ∈ (cleanExpired now s).lru.dropLast
      unfold mapHas
      rw [mapFind?_mapDelete _ _ _ w1, mem_dropLast_iff _ _ w2 hk]
      by_cases hj : k = j
      · subst hj
        simp
      · rw [if_neg hj, ← mapHas, w3]
        have hjk : ¬ j = k := fun hh => hj hh.symm
        simp [hjk]
    · exact h1
  · exact h1

theorem v2_evictLRU_preserves_none (now : Int) (s : State K V) (h : Wf s)
    (j : K) (hn : mapFind? s.map j = none) :
    mapFind? (evictLRU now s).map j = none := by
  have hcl : mapFind? (cleanExpired now s).map j = none := by
    rw [v2_cleanExpired_find now s h.1 j, hn]
    rfl
  simp only [evictLRU]
  split
  · split
    · next k hk =>
      show mapFind? (mapDelete (cleanExpired now s).map k) j = none
      rw [mapFind?_mapDelete _ _ _ (v2_wf_cleanExpired now s h).1]
      split
      · rfl
      · exact hcl
    · exact hcl
  · exact hcl

theorem v2_wf_update (k : K) (e : Entry V) (s : State K V) (h : Wf s)
    (hf : mapHas s.map k = true) :
    Wf { s with map := mapSet s.map k e, lru := moveToFront s.lru k } := by
  obtain ⟨h1, h2, h3⟩ := h
  have hkmem : k ∈ s.lru := (h3 k).mp hf
  refine ⟨?_, v2_moveToFront_nodup _ _ h2, ?_⟩
  · show (keysOf (mapSet s.map k e)).Nodup
    rw [keysOf_mapSet_of_has _ _ _ hf]
    exact h1
  · intro j
    show mapHas (mapSet s.map k e) j = true ↔ j ∈ moveToFront s.lru k
    rw [v2_moveToFront_mem _ _ _ h2 hkmem]
    unfold mapHas
    rw [mapFind?_mapSet]
    by_cases hj : k = j
    · subst hj
      simp [hkmem]
    · rw [if_neg hj, ← mapHas, h3]

theorem v2_wf_insertNew (k : K) (e : Entry V) (s : State K V) (h : Wf s)
    (hf : mapHas s.map k = false) :
    Wf { s with map := mapSet s.map k e, lru := k :: s.lru } := by
  obtain ⟨h1, h2, h3⟩ := h
  have hnk : k ∉ s.lru := fun hm => by
    have := (h3 k).mpr hm
    rw [hf] at this
    cases this
  refine ⟨?_, List.nodup_cons.mpr ⟨hnk, h2⟩, ?_⟩
  · show (keysOf (mapSet s.map k e)).Nodup
    rw [keysOf_mapSet_of_not_has _ _ _ hf]
    have hknot : k ∉ keysOf s.map := by
      rw [← mapHas_iff_mem_keysOf]
      simp [hf]
    simp [List.nodup_append, h1, hknot]
  · intro j
    show mapHas (mapSet s.map k e) j = true ↔ j ∈ k :: s.lru
    unfold mapHas
    rw [mapFind?_mapSet, List.mem_cons]
    by_cases hj : k = j
    · subst hj
      simp
    · rw [if_neg hj, ← mapHas, h3]
      have hjk : ¬ j = k := fun hh => hj hh.symm
      simp [hjk]

theorem v2_wf_set (now : Int) (k : K) (v : V) (ttl : Option Int)
    (s : State K V) (h : Wf s) : Wf (set now k v ttl s) := by
  unfold V2.set
  cases hf : mapFind? s.map k with
  | some e =>
    exact v2_wf_update k _ s h (by simp [mapHas, hf])
  | none =>
    have hw1 : Wf (if atCapacity s = true then evictLRU now s else s) := by
      split
      · exact v2_wf_evictLRU now s h
      · exact h
    have hf1 :
        mapFind? (if atCapacity s = true then evictLRU now s else s).map k
          = none := by
      split
      · exact v2_evictLRU_preserves_none now s h k hf
      · exact hf
    exact v2_wf_insertNew k _ _ hw1 (by simp [mapHas, hf1])

theorem v2_wf_get (now : Int) (k : K) (s : State K V) (h : Wf s) :
    Wf (get now k s).2 := by
  unfold V2.get
  cases hf : mapFind? s.map k with
  | none => exact h
  | some e =>
    dsimp only
    by_cases hexp : isExpired now e = true
    · rw [if_pos hexp]
      exact v2_wf_delete k s h
    · rw [if_neg hexp]
      obtain ⟨h1, h2, h3⟩ := h
      have hkmem : k ∈ s.lru := (h3 k).mp (by simp [mapHas, hf])
      exact ⟨h1, v2_moveToFront_nodup _ _ h2, fun j => by
        show mapHas s.map j = true ↔ j ∈ moveToFront s.lru k
        rw [v2_moveToFront_mem _ _ _ h2 hkmem]
        exact h3 j⟩

theorem v2_wf_has (now : Int) (k : K) (s : State K V) (h : Wf s) :
    Wf (has now k s).2 := by
  unfold has
  cases hf : mapFind? s.map k with
  | none => exact h
  | some e =>
    dsimp only
    by_cases hexp : isExpired now e = true
    · rw [if_pos hexp]
      exact v2_wf_delete k s h
    · rw [if_neg hexp]
      exact h

theorem v2_wf_size (now : Int) (s : State K V) (h : Wf s) :
    Wf (size now s).2 :=
  v2_wf_cleanExpired now s h

theorem v2_wf_clear (s : State K V) : Wf (clear s) := by
  refine ⟨List.nodup_nil, List.nodup_nil, fun k => ?_⟩
  simp [clear, mapHas, mapFind?]

theorem v2_wf_construct (maxSize : Option Nat) (dttl : Option Int) :
    Wf (construct maxSize dttl : State K V) := by
  refine ⟨List.nodup_nil, List.nodup_nil, fun k => ?_⟩
  simp [construct, mapHas, mapFind?]

theorem v2_lru_ne_nil_of_map_ne_nil (s : State K V) (h : Wf s)
    (hne : s.map ≠ []) : s.lru ≠ [] := by
  obtain ⟨h1, h2, h3⟩ := h
  cases hm : s.map with
  | nil => exact absurd hm hne
  | cons p rest =>
    have : mapHas s.map p.1 = true := by
      rw [mapHas_iff_mem_keysOf, hm, keysOf_cons]
      exact List.mem_cons_self _ _
    have := (h3 p.1).mp this
    exact List.ne_nil_of_mem this

theorem v2_cleanExpired_maxSize (now : Int) (s : State K V) :
    (cleanExpired now s).maxSize = s.maxSize := by
  rw [v2_cleanExpired_eq]

theorem v2_evictLRU_maxSize (now : Int) (s : State K V) :
    (evictLRU now s).maxSize = s.maxSize := by
  simp only [evictLRU]
  split
  · split
    · exact v2_cleanExpired_maxSize now s
    · exact v2_cleanExpired_maxSize now s
  · exact v2_cleanExpired_maxSize now s

theorem v2_set_maxSize (now : Int) (k : K) (v : V) (ttl : Option Int)
    (s : State K V) : (set now k v ttl s).maxSize = s.maxSize := by
  unfold V2.set
  cases mapFind? s.map k with
  | some e => rfl
  | none =>
    show (if atCapacity s = true then evictLRU now s else s).maxSize
      = s.maxSize
    split
    · exact v2_evictLRU_maxSize now s
    · rfl

theorem v2_set_defaultTTL (now : Int) (k : K) (v : V) (ttl : Option Int)
    (s : State K V) : (set now k v ttl s).defaultTTL = s.defaultTTL := by
  unfold V2.set
  cases mapFind? s.map k with
  | some e => rfl
  | none =>
    show (if atCapacity s = true then evictLRU now s else s).defaultTTL
      = s.defaultTTL
    have hclean : (cleanExpired now s).defaultTTL = s.defaultTTL := by
      rw [v2_cleanExpired_eq]
    split
    · simp only [evictLRU]
      split
      · split
        · exact hclean
        · exact hclean
      · exact hclean
    · rfl

theorem v2_evictLRU_length_lt (now : Int) (s : State K V) (h : Wf s)
    (m : Nat) (hms : s.maxSize = some m) (hm : 1 ≤ m)
    (hlen : s.map.length ≤ m) : (evictLRU now s).map.length < m := by
  simp only [evictLRU]
  have hclen := v2_cleanExpired_length_le now s
  have hwc := v2_wf_cleanExpired now s h
  cases hcap : atCapacity (cleanExpired now s) with
  | false =>
    rw [if_neg (by simp [hcap])]
    unfold atCapacity at hcap
    rw [v2_cleanExpired_maxSize, hms] at hcap
    simpa using hcap
  | true =>
    rw [if_pos (by simp [hcap])]
    unfold atCapacity at hcap
    rw [v2_cleanExpired_maxSize, hms] at hcap
    have hge : m ≤ (cleanExpired now s).map.length := by simpa using hcap
    have hmapne : (cleanExpired now s).map ≠ [] := by
      intro hnil
      rw [hnil] at hge
      simp at hge
      omega
    have hlne := v2_lru_ne_nil_of_map_ne_nil _ hwc hmapne
    cases hlast : (cleanExpired now s).lru.getLast? with
    | none =>
      rw [List.getLast?_eq_getLast _ hlne] at hlast
      cases hlast
    | some k =>
      have hkmem : k ∈ (cleanExpired now s).lru := by
        rw [getLast?_split _ _ hlast]
        exact List.mem_append_right _ (by simp)
      have hkhas : mapHas (cleanExpired now s).map k = true :=
        (hwc.2.2 k).mpr hkmem
      show (mapDelete (cleanExpired now s).map k).length < m
      have := length_mapDelete_of_has _ _ hkhas
      omega

theorem v2_set_length_le (now : Int) (k : K) (v : V) (ttl : Option Int)
    (s : State K V) (h : Wf s) (m : Nat) (hms : s.maxSize = some m)
    (hm : 1 ≤ m) (hlen : s.map.length ≤ m) :
    (set now k v ttl s).map.length ≤ m := by
  unfold V2.set
  cases hf : mapFind? s.map k with
  | some e =>
    show (mapSet s.map k _).length ≤ m
    rw [length_mapSet_of_has _ _ _ (by simp [mapHas, hf])]
    exact hlen
  | none =>
    cases hcap : atCapacity s with
    | true =>
      rw [if_pos (by simp [hcap])]
      have hevict := v2_evictLRU_length_lt now s h m hms hm hlen
      have hf1 := v2_evictLRU_preserves_none now s h k hf
      show (mapSet (evictLRU now s).map k _).length ≤ m
      rw [length_mapSet_of_not_has _ _ _ (by simp [mapHas, hf1])]
      omega
    | false =>
      rw [if_neg (by simp [hcap])]
      unfold atCapacity at hcap
      rw [hms] at hcap
      have hlt : s.map.length < m := by simpa using hcap
      show (mapSet s.map k _).length ≤ m
      cases hhas : mapHas s.map k with
      | true => rw [length_mapSet_of_has _ _ _ hhas]; exact hlen
      | false => rw [length_mapSet_of_not_has _ _ _ hhas]; omega

end V2Lemmas

section P1Lemmas

variable {K V : Type} [DecidableEq K]

open P1

theorem mapDelete_eq_of_not_has (m : List (K × E')) (k : K)
    [DecidableEq K] (h : mapHas m k = false) : mapDelete m k = m := by
  induction m with
  | nil => rfl
  | cons p rest ih =>
    obtain ⟨k', e'⟩ := p
    by_cases hk : k' = k
    · subst hk
      simp [mapHas, mapFind?] at h
    · simp only [mapHas, mapFind?, if_neg hk] at h
      rw [mapDelete_cons_ne e' rest hk, ih h]

theorem p1_delete_eq (k : K) (s : P1.State K V) (h : P1.Wf s) :
    P1.delete k s =
      { s with cache := mapDelete s.cache k, lru := s.lru.erase k } := by
  unfold P1.delete
  split
  · rfl
  · next hhas =>
    have h1 : mapHas s.cache k = false := by
      cases hb : mapHas s.cache k with
      | false => rfl
      | true => exact absurd hb hhas
    have h2 : k ∉ s.lru := fun hm => by
      rw [(h.2.2 k).mpr hm] at h1
      cases h1
    rw [mapDelete_eq_of_not_has _ _ h1, List.erase_of_not_mem h2]

theorem p1_wf_delete (k : K) (s : P1.State K V) (h : P1.Wf s) :
    P1.Wf (P1.delete k s) := by
  rw [p1_delete_eq k s h]
  obtain ⟨h1, h2, h3⟩ := h
  refine ⟨?_, h2.erase k, ?_⟩
  · show (keysOf (mapDelete s.cache k)).Nodup
    exact nodup_keysOf_mapDelete _ _ h1
  · intro j
    show mapHas (mapDelete s.cache k) j = true ↔ j ∈ s.lru.erase k
    unfold mapHas
    rw [mapFind?_mapDelete _ _ _ h1, h2.mem_erase_iff]
    by_cases hj : k = j
    · subst hj
      simp
    · rw [if_neg hj, ← mapHas, h3]
      have hjk : ¬ j = k := fun hh => hj hh.symm
      simp [hjk]

theorem p1_delete_find (k : K) (s : P1.State K V) (h : P1.Wf s) (j : K) :
    mapFind? (P1.delete k s).cache j =
      if k = j then none else mapFind? s.cache j := by
  rw [p1_delete_eq k s h]
  exact mapFind?_mapDelete _ _ _ h.1

theorem p1_foldl_delete (ks : List K) :
    ∀ s : P1.State K V, P1.Wf s →
      ks.foldl (fun st k => P1.delete k st) s =
        { s with cache := ks.foldl mapDelete s.cache,
                 lru := ks.foldl List.erase s.lru } := by
  induction ks with
  | nil => intro s _; rfl
  | cons k ks ih =>
    intro s h
    rw [List.foldl_cons, ih _ (p1_wf_delete k s h), p1_delete_eq k s h]
    rfl

theorem p1_cleanExpired_eq (now : Int) (s : P1.State K V) (h : P1.Wf s) :
    cleanExpired now s =
      { s with cache := (P1.expiredKeys now s).foldl mapDelete s.cache,
               lru := (P1.expiredKeys now s).foldl List.erase s.lru } :=
  p1_foldl_delete _ s h

theorem p1_mem_expiredKeys (now : Int) (s : P1.State K V)
    (hnd : (keysOf s.cache).Nodup) (k : K) :
    k ∈ P1.expiredKeys now s ↔
      ∃ e, mapFind? s.cache k = some e ∧ P1.isExpired now e = true := by
  unfold P1.expiredKeys keysOf
  simp only [List.mem_map, List.mem_filter]
  constructor
  · rintro ⟨⟨k', e⟩, ⟨hmem, hexp⟩, rfl⟩
    exact ⟨e, mem_mapFind?_of_nodup hnd hmem, hexp⟩
  · rintro ⟨e, hfind, hexp⟩
    exact ⟨(k, e), ⟨mapFind?_eq_some_mem hfind, hexp⟩, rfl⟩

theorem p1_cleanExpired_find (now : Int) (s : P1.State K V) (h : P1.Wf s)
    (j : K) :
    mapFind? (cleanExpired now s).cache j =
      (mapFind? s.cache j).filter (fun e => !P1.isExpired now e) := by
  rw [p1_cleanExpired_eq now s h]
  show mapFind? ((P1.expiredKeys now s).foldl mapDelete s.cache) j = _
  rw [mapFind?_foldl_mapDelete _ _ _ h.1]
  by_cases hj : j ∈ P1.expiredKeys now s
  · obtain ⟨e, hfind, hexp⟩ := (p1_mem_expiredKeys now s h.1 j).mp hj
    rw [if_pos hj, hfind]
    simp [Option.filter, hexp]
  · rw [if_neg hj]
    cases hfind : mapFind? s.cache j with
    | none => rfl
    | some e =>
      have hexp : P1.isExpired now e = false := by
        by_contra hc
        exact hj ((p1_mem_expiredKeys now s h.1 j).mpr
          ⟨e, hfind, by revert hc; cases P1.isExpired now e <;> simp⟩)
      simp [Option.filter, hexp]

theorem p1_wf_cleanExpired (now : Int) (s : P1.State K V) (h : P1.Wf s) :
    P1.Wf (cleanExpired now s) := by
  rw [p1_cleanExpired_eq now s h]
  obtain ⟨h1, h2, h3⟩ := h
  refine ⟨nodup_keysOf_foldl_mapDelete _ _ h1, nodup_foldl_erase _ _ h2, ?_⟩
  intro k
  show mapHas ((P1.expiredKeys now s).foldl mapDelete s.cache) k = true ↔
    k ∈ (P1.expiredKeys now s).foldl List.erase s.lru
  rw [mem_foldl_erase _ _ h2]
  unfold mapHas
  rw [mapFind?_foldl_mapDelete _ _ _ h1]
  by_cases hk : k ∈ P1.expiredKeys now s
  · simp [hk]
  · rw [if_neg hk]
    rw [← mapHas, h3]
    simp [hk]

theorem p1_cleanExpired_length_le (now : Int) (s : P1.State K V)
    (h : P1.Wf s) : (cleanExpired now s).cache.length ≤ s.cache.length := by
  rw [p1_cleanExpired_eq now s h]
  show ((P1.expiredKeys now s).foldl mapDelete s.cache).length ≤ _
  generalize P1.expiredKeys now s = ks
  clear h
  induction ks generalizing s with
  | nil => simp
  | cons k ks ih =>
    rw [List.foldl_cons]
    calc (ks.foldl mapDelete (mapDelete s.cache k)).length
        ≤ (mapDelete s.cache k).length := by
          have := ih (s := { s with cache := mapDelete s.cache k })
          simpa using this
      _ ≤ s.cache.length := length_mapDelete_le _ _

theorem p1_wf_moveToFront (k : K) (s : P1.State K V) (h : P1.Wf s) :
    P1.Wf (moveToFront k s) := by
  obtain ⟨h1, h2, h3⟩ := h
  unfold moveToFront
  split
  · exact ⟨h1, h2, h3⟩
  · split
    · next hmem =>
      refine ⟨h1, List.nodup_cons.mpr ⟨h2.not_mem_erase, h2.erase k⟩, ?_⟩
      intro j
      show mapHas s.cache j = true ↔ j ∈ k :: s.lru.erase k
      rw [h3, List.mem_cons, h2.mem_erase_iff]
      by_cases hj : j = k
      · subst hj
        simp [hmem]
      · simp [hj]
    · exact ⟨h1, h2, h3⟩

theorem p1_evictLRU_preserves_none (now : Int) (s : P1.State K V)
    (h : P1.Wf s) (j : K) (hn : mapFind? s.cache j = none) :
    mapFind? (evictLRU now s).cache j = none := by
  unfold evictLRU
  split
  · exact hn
  · split
    · next p heq =>
      rw [p1_delete_find _ _ h]
      split
      · rfl
      · exact hn
    · split
      · next k heq =>
        rw [p1_delete_find _ _ h]
        split
        · rfl
        · exact hn
      · exact hn

theorem p1_wf_evictLRU (now : Int) (s : P1.State K V) (h : P1.Wf s) :
    P1.Wf (evictLRU now s) := by
  unfold evictLRU
  split
  · exact h
  · split
    · exact p1_wf_delete _ s h
    · split
      · exact p1_wf_delete _ s h
      · exact h

theorem p1_wf_storeStep (now : Int) (k : K) (v : V) (ttl : Option Int)
    (s2 : P1.State K V)
    (hnodup : (keysOf (mapSet s2.cache k
      ⟨v, if ttl.getD s2.defaultTTL > 0 then
            some (now + ttl.getD s2.defaultTTL) else none, now⟩)).Nodup)
    (h2 : s2.lru.Nodup) (hk : k ∉ s2.lru)
    (h3 : ∀ j, j ≠ k → (mapHas s2.cache j = true ↔ j ∈ s2.lru)) :
    P1.Wf (storeStep now k v ttl s2) := by
  refine ⟨hnodup, List.nodup_cons.mpr ⟨hk, h2⟩, ?_⟩
  intro j
  show mapHas (mapSet s2.cache k _) j = true ↔ j ∈ k :: s2.lru
  unfold mapHas
  rw [mapFind?_mapSet, List.mem_cons]
  by_cases hj : k = j
  · subst hj
    simp
  · rw [if_neg hj, ← mapHas, h3 j (fun hh => hj hh.symm)]
    have hjk : ¬ j = k := fun hh => hj hh.symm
    simp [hjk]

theorem p1_wf_set (now : Int) (k : K) (v : V) (ttl : Option Int)
    (s : P1.State K V) (h : P1.Wf s) : P1.Wf (P1.set now k v ttl s) := by
  unfold P1.set
  cases hhas : mapHas s.cache k with
  | true =>
    have hu : unlinkStep k s = { s with lru := s.lru.erase k } := by
      unfold unlinkStep removeFromLRU
      rw [if_pos hhas]
    have he : evictStep now k { s with lru := s.lru.erase k }
        = { s with lru := s.lru.erase k } := by
      unfold evictStep
      rw [if_neg]
      rintro ⟨-, hc⟩
      rw [show ({ s with lru := s.lru.erase k } : P1.State K V).cache
        = s.cache from rfl, hhas] at hc
      cases hc
    rw [hu, he]
    obtain ⟨h1, h2, h3⟩ := h
    refine p1_wf_storeStep now k v ttl _ ?_ (h2.erase k) h2.not_mem_erase ?_
    · show (keysOf (mapSet s.cache k _)).Nodup
      rw [keysOf_mapSet_of_has _ _ _ hhas]
      exact h1
    · intro j hj
      show mapHas s.cache j = true ↔ j ∈ s.lru.erase k
      rw [h3, h2.mem_erase_iff]
      simp [hj]
  | false =>
    have hu : unlinkStep k s = s := by
      unfold unlinkStep
      rw [if_neg (by simp [hhas])]
    rw [hu]
    have hn : mapFind? s.cache k = none := by
      cases hf : mapFind? s.cache k with
      | none => rfl
      | some e => rw [mapHas, hf] at hhas; cases hhas
    have hw2 : P1.Wf (evictStep now k s) := by
      unfold evictStep
      split
      · exact p1_wf_evictLRU now s h
      · exact h
    have hf2 : mapFind? (evictStep now k s).cache k = none := by
      unfold evictStep
      split
      · exact p1_evictLRU_preserves_none now s h k hn
      · exact hn
    obtain ⟨h1, h2, h3⟩ := hw2
    have hnk : k ∉ (evictStep now k s).lru := fun hm => by
      have := (h3 k).mpr hm
      rw [mapHas, hf2] at this
      cases this
    refine p1_wf_storeStep now k v ttl _ ?_ h2 hnk ?_
    · show (keysOf (mapSet (evictStep now k s).cache k _)).Nodup
      rw [keysOf_mapSet_of_not_has _ _ _ (by simp [mapHas, hf2])]
      have hknot : k ∉ keysOf (evictStep now k s).cache := by
        rw [← mapHas_iff_mem_keysOf]
        simp [mapHas, hf2]
      simp [List.nodup_append, h1, hknot]
    · intro j _
      exact h3 j

theorem p1_wf_get (now : Int) (k : K) (s : P1.State K V) (h : P1.Wf s) :
    P1.Wf (P1.get now k s).2 := by
  unfold P1.get
  cases hf : mapFind? s.cache k with
  | none => exact h
  | some e =>
    dsimp only
    by_cases hexp : P1.isExpired now e = true
    · rw [if_pos hexp]
      exact p1_wf_delete k s h
    · rw [if_neg hexp]
      refine p1_wf_moveToFront k _ ⟨?_, h.2.1, ?_⟩
      · show (keysOf (mapSet s.cache k _)).Nodup
        rw [keysOf_mapSet_of_has _ _ _ (by simp [mapHas, hf])]
        exact h.1
      · intro j
        show mapHas (mapSet s.cache k _) j = true ↔ j ∈ s.lru
        unfold mapHas
        rw [mapFind?_mapSet]
        by_cases hj : k = j
        · subst hj
          simp only [if_pos rfl]
          constructor
          · intro _
            exact (h.2.2 k).mp (by simp [mapHas, hf])
          · intro _
            rfl
        · rw [if_neg hj, ← mapHas, h.2.2]

theorem p1_wf_has (now : Int) (k : K) (s : P1.State K V) (h : P1.Wf s) :
    P1.Wf (P1.has now k s).2 := by
  unfold P1.has
  cases hf : mapFind? s.cache k with
  | none => exact h
  | some e =>
    dsimp only
    by_cases hexp : P1.isExpired now e = true
    · rw [if_pos hexp]
      exact p1_wf_delete k s h
    · rw [if_neg hexp]
      exact h

theorem p1_wf_size (now : Int) (s : P1.State K V) (h : P1.Wf s) :
    P1.Wf (P1.size now s).2 :=
  p1_wf_cleanExpired now s h

theorem p1_wf_clear (s : P1.State K V) : P1.Wf (P1.clear s) := by
  refine ⟨List.nodup_nil, List.nodup_nil, fun k => ?_⟩
  simp [P1.clear, mapHas, mapFind?]

theorem p1_wf_construct (maxSize : Nat) (dttl : Option Int) :
    P1.Wf (P1.construct maxSize dttl : P1.State K V) := by
  refine ⟨List.nodup_nil, List.nodup_nil, fun k => ?_⟩
  simp [P1.construct, mapHas, mapFind?]

theorem p1_lru_ne_nil_of_cache_ne_nil (s : P1.State K V) (h : P1.Wf s)
    (hne : s.cache ≠ []) : s.lru ≠ [] := by
  obtain ⟨h1, h2, h3⟩ := h
  cases hm : s.cache with
  | nil => exact absurd hm hne
  | cons p rest =>
    have : mapHas s.cache p.1 = true := by
      rw [mapHas_iff_mem_keysOf, hm, keysOf_cons]
      exact List.mem_cons_self _ _
    have := (h3 p.1).mp this
    exact List.ne_nil_of_mem this

theorem p1_delete_maxSize (k : K) (s : P1.State K V) :
    (P1.delete k s).maxSize = s.maxSize := by
  unfold P1.delete
  split <;> rfl

theorem p1_delete_defaultTTL (k : K) (s : P1.State K V) :
    (P1.delete k s).defaultTTL = s.defaultTTL := by
  unfold P1.delete
  split <;> rfl

theorem p1_evictLRU_maxSize (now : Int) (s : P1.State K V) :
    (evictLRU now s).maxSize = s.maxSize := by
  unfold evictLRU
  split
  · rfl
  · split
    · exact p1_delete_maxSize _ _
    · split
      · exact p1_delete_maxSize _ _
      · rfl

theorem p1_evictLRU_defaultTTL (now : Int) (s : P1.State K V) :
    (evictLRU now s).defaultTTL = s.defaultTTL := by
  unfold evictLRU
  split
  · rfl
  · split
    · exact p1_delete_defaultTTL _ _
    · split
      · exact p1_delete_defaultTTL _ _
      · rfl

theorem p1_unlinkStep_fields (k : K) (s : P1.State K V) :
    (unlinkStep k s).cache = s.cache ∧
      (unlinkStep k s).maxSize = s.maxSize ∧
      (unlinkStep k s).defaultTTL = s.defaultTTL := by
  unfold unlinkStep removeFromLRU
  split <;> exact ⟨rfl, rfl, rfl⟩

theorem p1_evictStep_fields (now : Int) (k : K) (s : P1.State K V) :
    (evictStep now k s).maxSize = s.maxSize ∧
      (evictStep now k s).defaultTTL = s.defaultTTL := by
  unfold evictStep
  split
  · exact ⟨p1_evictLRU_maxSize _ _, p1_evictLRU_defaultTTL _ _⟩
  · exact ⟨rfl, rfl⟩

theorem p1_set_maxSize (now : Int) (k : K) (v : V) (ttl : Option Int)
    (s : P1.State K V) : (P1.set now k v ttl s).maxSize = s.maxSize := by
  unfold P1.set
  show (evictStep now k (unlinkStep k s)).maxSize = s.maxSize
  rw [(p1_evictStep_fields now k _).1, (p1_unlinkStep_fields k s).2.1]

theorem p1_set_defaultTTL (now : Int) (k : K) (v : V) (ttl : Option Int)
    (s : P1.State K V) : (P1.set now k v ttl s).defaultTTL = s.defaultTTL := by
  unfold P1.set
  show (evictStep now k (unlinkStep k s)).defaultTTL = s.defaultTTL
  rw [(p1_evictStep_fields now k _).2, (p1_unlinkStep_fields k s).2.2]

theorem p1_evictLRU_length (now : Int) (s : P1.State K V) (h : P1.Wf s)
    (hne : 1 ≤ s.cache.length) :
    (evictLRU now s).cache.length + 1 = s.cache.length := by
  unfold evictLRU
  have hcne : s.cache ≠ [] := by
    intro h0
    rw [h0] at hne
    simp at hne
  have hlne := p1_lru_ne_nil_of_cache_ne_nil s h hcne
  rw [if_neg hlne]
  cases hfind : s.cache.find? (fun p => P1.isExpired now p.2) with
  | some p =>
    dsimp only
    have hmem := List.mem_of_find?_eq_some hfind
    have hhas : mapHas s.cache p.1 = true := by
      rw [mapHas_iff_mem_keysOf]
      unfold keysOf
      exact List.mem_map.mpr ⟨p, hmem, rfl⟩
    rw [p1_delete_eq _ _ h]
    show (mapDelete s.cache p.1).length + 1 = s.cache.length
    exact length_mapDelete_of_has _ _ hhas
  | none =>
    cases hlast : s.lru.getLast? with
    | none =>
      rw [List.getLast?_eq_getLast _ hlne] at hlast
      cases hlast
    | some k =>
      dsimp only
      have hkmem : k ∈ s.lru := by
        rw [getLast?_split _ _ hlast]
        exact List.mem_append_right _ (by simp)
      have hkhas := (h.2.2 k).mpr hkmem
      rw [p1_delete_eq _ _ h]
      show (mapDelete s.cache k).length + 1 = s.cache.length
      exact length_mapDelete_of_has _ _ hkhas

theorem p1_set_length_le (now : Int) (k : K) (v : V) (ttl : Option Int)
    (s : P1.State K V) (h : P1.Wf s) (hm : 1 ≤ s.maxSize)
    (hlen : s.cache.length ≤ s.maxSize) :
    (P1.set now k v ttl s).cache.length ≤ s.maxSize := by
  unfold P1.set
  cases hhas : mapHas s.cache k with
  | true =>
    have hu : unlinkStep k s = { s with lru := s.lru.erase k } := by
      unfold unlinkStep removeFromLRU
      rw [if_pos hhas]
    have he : evictStep now k { s with lru := s.lru.erase k }
        = { s with lru := s.lru.erase k } := by
      unfold evictStep
      rw [if_neg]
      rintro ⟨-, hc⟩
      rw [show ({ s with lru := s.lru.erase k } : P1.State K V).cache
        = s.cache from rfl, hhas] at hc
      cases hc
    rw [hu, he]
    show (mapSet s.cache k _).length ≤ s.maxSize
    rw [length_mapSet_of_has _ _ _ hhas]
    exact hlen
  | false =>
    have hu : unlinkStep k s = s := by
      unfold unlinkStep
      rw [if_neg (by simp [hhas])]
    rw [hu]
    unfold evictStep
    by_cases hcap : s.cache.length ≥ s.maxSize ∧ mapHas s.cache k = false
    · rw [if_pos hcap]
      have h1le : 1 ≤ s.cache.length := le_trans hm hcap.1
      have hev := p1_evictLRU_length now s h h1le
      have hn : mapFind? s.cache k = none := by
        cases hf : mapFind? s.cache k with
        | none => rfl
        | some e => rw [mapHas, hf] at hhas; cases hhas
      have hf2 := p1_evictLRU_preserves_none now s h k hn
      show (mapSet (evictLRU now s).cache k _).length ≤ s.maxSize
      rw [length_mapSet_of_not_has _ _ _ (by simp [mapHas, hf2])]
      omega
    · rw [if_neg hcap]
      have hlt : s.cache.length < s.maxSize := by
        by_contra hge
        exact hcap ⟨by omega, hhas⟩
      show (mapSet s.cache k _).length ≤ s.maxSize
      rw [length_mapSet_of_not_has _ _ _ hhas]
      omega

end P1Lemmas

section EvictionContract

variable {K V : Type} [DecidableEq K]

theorem v2_cleanExpired_lru_eq (now : Int) (s : V2.State K V)
    (h : V2.Wf s) : (V2.cleanExpired now s).lru = v2_liveLru now s := by
  rw [v2_cleanExpired_eq]
  exact foldl_erase_eq_filter _ _ h.2.1

theorem v2_evict_removes_expired (now : Int) (s : V2.State K V)
    (h : V2.Wf s) (k : K) (e : V2.Entry V)
    (hfind : mapFind? s.map k = some e) (hexp : V2.isExpired now e = true) :
    mapHas (V2.evictLRU now s).map k = false := by
  have hcl : mapFind? (V2.cleanExpired now s).map k = none := by
    rw [v2_cleanExpired_find now s h.1 k, hfind]
    simp [Option.filter, hexp]
  simp only [V2.evictLRU]
  split
  · split
    · next k0 hk0 =>
      show mapHas (mapDelete (V2.cleanExpired now s).map k0) k = false
      unfold mapHas
      rw [mapFind?_mapDelete _ _ _ (v2_wf_cleanExpired now s h).1]
      split
      · rfl
      · rw [hcl]
        rfl
    · simp [mapHas, hcl]
  · simp [mapHas, hcl]

theorem v2_evict_tail_or_expired (now : Int) (s : V2.State K V)
    (h : V2.Wf s) (k : K) (e : V2.Entry V)
    (hfind : mapFind? s.map k = some e)
    (hgone : mapHas (V2.evictLRU now s).map k = false) :
    V2.isExpired now e = true ∨
      (V2.isExpired now e = false ∧ (v2_liveLru now s).getLast? = some k) := by
  cases hexp : V2.isExpired now e with
  | true => exact Or.inl rfl
  | false =>
    refine Or.inr ⟨rfl, ?_⟩
    have hcl : mapFind? (V2.cleanExpired now s).map k = some e := by
      rw [v2_cleanExpired_find now s h.1 k, hfind]
      simp [Option.filter, hexp]
    have hlru := v2_cleanExpired_lru_eq now s h
    simp only [V2.evictLRU] at hgone
    by_cases hcap : V2.atCapacity (V2.cleanExpired now s) = true
    · rw [if_pos hcap] at hgone
      cases hlast : (V2.cleanExpired now s).lru.getLast? with
      | none =>
        rw [hlast] at hgone
        dsimp only at hgone
        rw [mapHas, hcl] at hgone
        simp at hgone
      | some k0 =>
        rw [hlast] at hgone
        dsimp only at hgone
        have hk0 : k0 = k := by
          by_contra hne
          unfold mapHas at hgone
          rw [mapFind?_mapDelete _ _ _ (v2_wf_cleanExpired now s h).1,
            if_neg hne, hcl] at hgone
          simp at hgone
        rw [← hlru, hlast, hk0]
    · rw [if_neg hcap] at hgone
      rw [mapHas, hcl] at hgone
      simp at hgone

theorem p1_evict_one (now : Int) (s : P1.State K V) (h : P1.Wf s) (k : K)
    (e : P1.Entry V) (hfind : mapFind? s.cache k = some e)
    (hgone : mapHas (P1.evictLRU now s).cache k = false) :
    P1.isExpired now e = true ∨
      (P1.isExpired now e = false ∧ s.lru.getLast? = some k ∧
        ∀ j ej, mapFind? s.cache j = some ej →
          P1.isExpired now ej = false) := by
  unfold P1.evictLRU at hgone
  by_cases hnil : s.lru = []
  · rw [if_pos hnil, mapHas, hfind] at hgone
    simp at hgone
  · rw [if_neg hnil] at hgone
    cases hfe : s.cache.find? (fun p => P1.isExpired now p.2) with
    | some p =>
      rw [hfe] at hgone
      dsimp only at hgone
      have hpexp : P1.isExpired now p.2 = true := by
        have h0 := List.find?_some hfe
        simpa using h0
      have hpmem := List.mem_of_find?_eq_some hfe
      have hpfind : mapFind? s.cache p.1 = some p.2 :=
        mem_mapFind?_of_nodup h.1 hpmem
      by_cases hpk : p.1 = k
      · left
        rw [hpk] at hpfind
        rw [hpfind] at hfind
        injection hfind with he
        rw [← he]
        exact hpexp
      · exfalso
        rw [p1_delete_eq _ _ h] at hgone
        dsimp only at hgone
        unfold mapHas at hgone
        rw [mapFind?_mapDelete _ _ _ h.1, if_neg hpk, hfind] at hgone
        simp at hgone
    | none =>
      rw [hfe] at hgone
      dsimp only at hgone
      have hnone : ∀ j ej, mapFind? s.cache j = some ej →
          P1.isExpired now ej = false := by
        intro j ej hj
        have hmem := mapFind?_eq_some_mem hj
        have h0 := List.find?_eq_none.mp hfe (j, ej) hmem
        cases hb : P1.isExpired now ej with
        | false => rfl
        | true => exact absurd hb h0
      cases hlast : s.lru.getLast? with
      | none =>
        rw [List.getLast?_eq_getLast _ hnil] at hlast
        cases hlast
      | some k0 =>
        rw [hlast] at hgone
        dsimp only at hgone
        by_cases hk0 : k0 = k
        · subst hk0
          exact Or.inr ⟨hnone k0 e hfind, rfl, hnone⟩
        · exfalso
          rw [p1_delete_eq _ _ h] at hgone
          dsimp only at hgone
          unfold mapHas at hgone
          rw [mapFind?_mapDelete _ _ _ h.1, if_neg hk0, hfind] at hgone
          simp at hgone

end EvictionContract

section ExpiryLemmas

variable {K V : Type} [DecidableEq K]

theorem p1_storeStep_def (now : Int) (k : K) (v : V) (ttlMs : Option Int)
    (s2 : P1.State K V) :
    P1.storeStep now k v ttlMs s2 =
      { s2 with
        cache := mapSet s2.cache k
          ⟨v, if ttlMs.getD s2.defaultTTL > 0 then
                some (now + ttlMs.getD s2.defaultTTL) else none, now⟩,
        lru := k :: s2.lru } := rfl

theorem v2_get_absent (now : Int) (k : K) (s : V2.State K V)
    (hf : mapFind? s.map k = none) : V2.get now k s = (none, s) := by
  unfold V2.get
  rw [hf]

theorem v2_has_absent (now : Int) (k : K) (s : V2.State K V)
    (hf : mapFind? s.map k = none) : V2.has now k s = (false, s) := by
  unfold V2.has
  rw [hf]

theorem v2_get_expired (now : Int) (k : K) (s : V2.State K V) (h : V2.Wf s)
    (e : V2.Entry V) (hf : mapFind? s.map k = some e)
    (hexp : V2.isExpired now e = true) :
    (V2.get now k s).1 = none ∧
      mapHas (V2.get now k s).2.map k = false ∧
      k ∉ (V2.get now k s).2.lru := by
  unfold V2.get
  rw [hf]
  dsimp only
  rw [if_pos hexp]
  exact ⟨rfl, v2_delete_not_has k s h, v2_delete_lru k s h⟩

theorem v2_has_expired (now : Int) (k : K) (s : V2.State K V) (h : V2.Wf s)
    (e : V2.Entry V) (hf : mapFind? s.map k = some e)
    (hexp : V2.isExpired now e = true) :
    (V2.has now k s).1 = false ∧
      mapHas (V2.has now k s).2.map k = false ∧
      k ∉ (V2.has now k s).2.lru := by
  unfold V2.has
  rw [hf]
  dsimp only
  rw [if_pos hexp]
  exact ⟨rfl, v2_delete_not_has k s h, v2_delete_lru k s h⟩

theorem v2_size_expired (now : Int) (k : K) (s : V2.State K V) (h : V2.Wf s)
    (e : V2.Entry V) (hf : mapFind? s.map k = some e)
    (hexp : V2.isExpired now e = true) :
    mapFind? (V2.size now s).2.map k = none ∧
      k ∉ (V2.size now s).2.lru := by
  constructor
  · show mapFind? (V2.cleanExpired now s).map k = none
    rw [v2_cleanExpired_find now s h.1 k, hf]
    simp [Option.filter, hexp]
  · show k ∉ (V2.cleanExpired now s).lru
    rw [v2_cleanExpired_lru_eq now s h]
    unfold v2_liveLru
    intro hmem
    rw [List.mem_filter] at hmem
    refine absurd ((v2_mem_expiredKeys now s h.1 k).mpr ⟨e, hf, hexp⟩) ?_
    simpa using hmem.2

theorem v2_delete_preserves_none (j k : K) (s : V2.State K V)
    (hnd : (keysOf s.map).Nodup) (hf : mapFind? s.map k = none) :
    mapFind? (V2.delete j s).map k = none := by
  unfold V2.delete
  cases mapFind? s.map j with
  | none => exact hf
  | some e =>
    show mapFind? (mapDelete s.map j) k = none
    rw [mapFind?_mapDelete _ _ _ hnd]
    split
    · rfl
    · exact hf

theorem v2_cleanExpired_preserves_none (now : Int) (k : K)
    (s : V2.State K V) (hnd : (keysOf s.map).Nodup)
    (hf : mapFind? s.map k = none) :
    mapFind? (V2.cleanExpired now s).map k = none := by
  rw [v2_cleanExpired_find now s hnd k, hf]
  rfl

theorem v2_set_preserves_none (now : Int) (j : K) (v : V) (ttl : Option Int)
    (k : K) (s : V2.State K V) (h : V2.Wf s) (hjk : j ≠ k)
    (hf : mapFind? s.map k = none) :
    mapFind? (V2.set now j v ttl s).map k = none := by
  unfold V2.set
  cases hfj : mapFind? s.map j with
  | some e =>
    show mapFind? (mapSet s.map j _) k = none
    rw [mapFind?_mapSet, if_neg hjk]
    exact hf
  | none =>
    have hf1 : mapFind?
        (if V2.atCapacity s = true then V2.evictLRU now s else s).map k
          = none := by
      split
      · exact v2_evictLRU_preserves_none now s h k hf
      · exact hf
    show mapFind? (mapSet _ j _) k = none
    rw [mapFind?_mapSet, if_neg hjk]
    exact hf1

theorem v2_get_preserves_none (now : Int) (j k : K) (s : V2.State K V)
    (h : V2.Wf s) (hf : mapFind? s.map k = none) :
    mapFind? (V2.get now j s).2.map k = none := by
  unfold V2.get
  cases hfj : mapFind? s.map j with
  | none => exact hf
  | some e =>
    dsimp only
    split
    · exact v2_delete_preserves_none j k s h.1 hf
    · exact hf

theorem v2_has_preserves_none (now : Int) (j k : K) (s : V2.State K V)
    (h : V2.Wf s) (hf : mapFind? s.map k = none) :
    mapFind? (V2.has now j s).2.map k = none := by
  unfold V2.has
  cases hfj : mapFind? s.map j with
  | none => exact hf
  | some e =>
    dsimp only
    split
    · exact v2_delete_preserves_none j k s h.1 hf
    · exact hf

theorem p1_delete_not_has (k : K) (s : P1.State K V) (h : P1.Wf s) :
    mapHas (P1.delete k s).cache k = false := by
  rw [p1_delete_eq _ _ h]
  show mapHas (mapDelete s.cache k) k = false
  unfold mapHas
  rw [mapFind?_mapDelete _ _ _ h.1, if_pos rfl]
  rfl

theorem p1_delete_lru_not_mem (k : K) (s : P1.State K V) (h : P1.Wf s) :
    k ∉ (P1.delete k s).lru := by
  rw [p1_delete_eq _ _ h]
  exact h.2.1.not_mem_erase

theorem p1_get_expired (now : Int) (k : K) (s : P1.State K V) (h : P1.Wf s)
    (e : P1.Entry V) (hf : mapFind? s.cache k = some e)
    (hexp : P1.isExpired now e = true) :
    (P1.get now k s).1 = none ∧
      mapHas (P1.get now k s).2.cache k = false ∧
      k ∉ (P1.get now k s).2.lru := by
  unfold P1.get
  rw [hf]
  dsimp only
  rw [if_pos hexp]
  exact ⟨rfl, p1_delete_not_has k s h, p1_delete_lru_not_mem k s h⟩

theorem p1_has_expired (now : Int) (k : K) (s : P1.State K V) (h : P1.Wf s)
    (e : P1.Entry V) (hf : mapFind? s.cache k = some e)
    (hexp : P1.isExpired now e = true) :
    (P1.has now k s).1 = false ∧
      mapHas (P1.has now k s).2.cache k = false ∧
      k ∉ (P1.has now k s).2.lru := by
  unfold P1.has
  rw [hf]
  dsimp only
  rw [if_pos hexp]
  exact ⟨rfl, p1_delete_not_has k s h, p1_delete_lru_not_mem k s h⟩

theorem p1_size_expired (now : Int) (k : K) (s : P1.State K V) (h : P1.Wf s)
    (e : P1.Entry V) (hf : mapFind? s.cache k = some e)
    (hexp : P1.isExpired now e = true) :
    mapFind? (P1.size now s).2.cache k = none ∧
      k ∉ (P1.size now s).2.lru := by
  constructor
  · show mapFind? (P1.cleanExpired now s).cache k = none
    rw [p1_cleanExpired_find now s h k, hf]
    simp [Option.filter, hexp]
  · show k ∉ (P1.cleanExpired now s).lru
    rw [p1_cleanExpired_eq now s h]
    intro hmem
    rw [show ({ s with
        cache := (P1.expiredKeys now s).foldl mapDelete s.cache,
        lru := (P1.expiredKeys now s).foldl List.erase s.lru } :
          P1.State K V).lru
      = (P1.expiredKeys now s).foldl List.erase s.lru from rfl] at hmem
    rw [mem_foldl_erase _ _ h.2.1] at hmem
    exact hmem.2 ((p1_mem_expiredKeys now s h.1 k).mpr ⟨e, hf, hexp⟩)

theorem p1_get_absent (now : Int) (k : K) (s : P1.State K V)
    (hf : mapFind? s.cache k = none) : P1.get now k s = (none, s) := by
  unfold P1.get
  rw [hf]

theorem p1_has_absent (now : Int) (k : K) (s : P1.State K V)
    (hf : mapFind? s.cache k = none) : P1.has now k s = (false, s) := by
  unfold P1.has
  rw [hf]

theorem p1_delete_preserves_none (j k : K) (s : P1.State K V)
    (h : P1.Wf s) (hf : mapFind? s.cache k = none) :
    mapFind? (P1.delete j s).cache k = none := by
  rw [p1_delete_find j s h k]
  split
  · rfl
  · exact hf

theorem p1_cleanExpired_preserves_none (now : Int) (k : K)
    (s : P1.State K V) (h : P1.Wf s) (hf : mapFind? s.cache k = none) :
    mapFind? (P1.cleanExpired now s).cache k = none := by
  rw [p1_cleanExpired_find now s h k, hf]
  rfl

theorem p1_set_preserves_none (now : Int) (j : K) (v : V)
    (ttl : Option Int) (k : K) (s : P1.State K V) (h : P1.Wf s)
    (hjk : j ≠ k) (hf : mapFind? s.cache k = none) :
    mapFind? (P1.set now j v ttl s).cache k = none := by
  unfold P1.set
  rw [p1_storeStep_def, mapFind?_mapSet, if_neg hjk]
  cases hhas : mapHas s.cache j with
  | true =>
    have hu : P1.unlinkStep j s = { s with lru := s.lru.erase j } := by
      unfold P1.unlinkStep P1.removeFromLRU
      rw [if_pos hhas]
    have he : P1.evictStep now j { s with lru := s.lru.erase j }
        = { s with lru := s.lru.erase j } := by
      unfold P1.evictStep
      rw [if_neg]
      rintro ⟨-, hc⟩
      rw [show ({ s with lru := s.lru.erase j } : P1.State K V).cache
        = s.cache from rfl, hhas] at hc
      cases hc
    rw [hu, he]
    exact hf
  | false =>
    have hu : P1.unlinkStep j s = s := by
      unfold P1.unlinkStep
      rw [if_neg (by simp [hhas])]
    rw [hu]
    unfold P1.evictStep
    split
    · exact p1_evictLRU_preserves_none now s h k hf
    · exact hf

theorem p1_moveToFront_cache (k : K) (s : P1.State K V) :
    (P1.moveToFront k s).cache = s.cache := by
  unfold P1.moveToFront
  split
  · rfl
  · split
    · rfl
    · rfl

theorem p1_get_preserves_none (now : Int) (j k : K) (s : P1.State K V)
    (h : P1.Wf s) (hf : mapFind? s.cache k = none) :
    mapFind? (P1.get now j s).2.cache k = none := by
  unfold P1.get
  cases hfj : mapFind? s.cache j with
  | none => exact hf
  | some e =>
    dsimp only
    split
    · exact p1_delete_preserves_none j k s h hf
    · have hjk : ¬ j = k := by
        rintro rfl
        rw [hf] at hfj
        cases hfj
      rw [p1_moveToFront_cache]
      show mapFind? (mapSet s.cache j _) k = none
      rw [mapFind?_mapSet, if_neg hjk]
      exact hf

theorem p1_has_preserves_none (now : Int) (j k : K) (s : P1.State K V)
    (h : P1.Wf s) (hf : mapFind? s.cache k = none) :
    mapFind? (P1.has now j s).2.cache k = none := by
  unfold P1.has
  cases hfj : mapFind? s.cache j with
  | none => exact hf
  | some e =>
    dsimp only
    split
    · exact p1_delete_preserves_none j k s h hf
    · exact hf

end ExpiryLemmas

section RestoreLemmas

variable {V : Type}

theorem mem_mapSet {K E : Type} [DecidableEq K] {m : List (K × E)}
    {k : K} {e : E} {p : K × E} :
    p ∈ mapSet m k e → p ∈ m ∨ p = (k, e) := by
  induction m with
  | nil =>
    intro h
    simp [mapSet] at h
    exact Or.inr h
  | cons q rest ih =>
    intro h
    obtain ⟨k', e'⟩ := q
    by_cases hk : k' = k
    · rw [show mapSet ((k', e') :: rest) k e = (k, e) :: rest from
        by simp [mapSet, hk]] at h
      rcases List.mem_cons.mp h with h | h
      · exact Or.inr h
      · exact Or.inl (List.mem_cons_of_mem _ h)
    · rw [show mapSet ((k', e') :: rest) k e
        = (k', e') :: mapSet rest k e from by simp [mapSet, hk]] at h
      rcases List.mem_cons.mp h with h | h
      · exact Or.inl (by rw [h]; exact List.mem_cons_self _ _)
      · rcases ih h with h2 | h2
        · exact Or.inl (List.mem_cons_of_mem _ h2)
        · exact Or.inr h2

theorem v2_restoreLoop_cons_ok (now : Int) (ks : String) (e : V2.Entry V)
    (rest : Blob (V2.Entry V)) (s : V2.State JKey V) :
    V2.restoreLoop now ((ks, BlobEntry.ok e) :: rest) s =
      if V2.isExpired now e = true then V2.restoreLoop now rest s
      else V2.restoreLoop now rest
        { s with map := mapSet s.map (V2.decodeKey ks) e,
                 lru := V2.decodeKey ks :: s.lru } := rfl

theorem p1_restoreLoop_cons_ok (now : Int) (ks : String) (e : P1.Entry V)
    (rest : Blob (P1.Entry V)) (s : P1.State JKey V) :
    P1.restoreLoop now ((ks, BlobEntry.ok e) :: rest) s =
      if P1.isExpired now e = true then P1.restoreLoop now rest s
      else P1.restoreLoop now rest
        { s with cache := mapSet s.cache (P1.parseKey ks) e,
                 lru := P1.parseKey ks :: s.lru } := rfl

theorem nodup_shift_append {A : Type} (x : A) (l1 l2 : List A)
    (h : (x :: (l1 ++ l2)).Nodup) : (l1 ++ (l2 ++ [x])).Nodup := by
  have hperm : List.Perm (l1 ++ (l2 ++ [x])) (x :: (l1 ++ l2)) := by
    have h1 : l1 ++ (l2 ++ [x]) = (l1 ++ l2) ++ [x] :=
      (List.append_assoc _ _ _).symm
    rw [h1]
    exact List.perm_append_singleton _ _
  exact hperm.nodup_iff.mpr h

theorem v2_restoreLoop_wf (now : Int) (es : Blob (V2.Entry V)) :
    ∀ s : V2.State JKey V, V2.Wf s →
      (v2_blobKeys es ++ keysOf s.map).Nodup →
      V2.Wf (V2.restoreLoop now es s) := by
  induction es with
  | nil =>
    intro s h _
    exact h
  | cons p rest ih =>
    obtain ⟨ks, be⟩ := p
    cases be with
    | null =>
      intro s h _
      exact h
    | ok e =>
      intro s h hnd
      rw [show v2_blobKeys ((ks, BlobEntry.ok e) :: rest)
        = V2.decodeKey ks :: v2_blobKeys rest from rfl,
        List.cons_append, List.nodup_cons] at hnd
      obtain ⟨hhead, htail⟩ := hnd
      rw [v2_restoreLoop_cons_ok]
      cases hexp : V2.isExpired now e with
      | true =>
        rw [if_pos rfl]
        exact ih s h htail
      | false =>
        rw [if_neg (by simp)]
        have hknot : V2.decodeKey ks ∉ keysOf s.map := fun hm =>
          hhead (List.mem_append_right _ hm)
        have hhas : mapHas s.map (V2.decodeKey ks) = false := by
          cases hb : mapHas s.map (V2.decodeKey ks) with
          | false => rfl
          | true =>
            exact absurd ((mapHas_iff_mem_keysOf _ _).mp hb) hknot
        refine ih _ (v2_wf_insertNew _ e s h hhas) ?_
        rw [show keysOf (mapSet s.map (V2.decodeKey ks) e) =
          keysOf s.map ++ [V2.decodeKey ks] from
          keysOf_mapSet_of_not_has _ _ _ hhas]
        exact nodup_shift_append _ _ _
          (List.nodup_cons.mpr ⟨hhead, htail⟩)

theorem v2_restoreLoop_length (now : Int) (es : Blob (V2.Entry V))
    (hok : ∀ p ∈ es, p.2 ≠ BlobEntry.null) :
    ∀ s : V2.State JKey V,
      (v2_blobKeys es ++ keysOf s.map).Nodup →
      (V2.restoreLoop now es s).map.length
        = s.map.length + v2_liveCount now es := by
  induction es with
  | nil =>
    intro s _
    simp [V2.restoreLoop, v2_liveCount]
  | cons p rest ih =>
    obtain ⟨ks, be⟩ := p
    cases be with
    | null =>
      exact absurd rfl (hok (ks, BlobEntry.null) (List.mem_cons_self _ _))
    | ok e =>
      intro s hnd
      rw [show v2_blobKeys ((ks, BlobEntry.ok e) :: rest)
        = V2.decodeKey ks :: v2_blobKeys rest from rfl,
        List.cons_append, List.nodup_cons] at hnd
      obtain ⟨hhead, htail⟩ := hnd
      have hok' : ∀ p ∈ rest, p.2 ≠ BlobEntry.null := fun p hp =>
        hok p (List.mem_cons_of_mem _ hp)
      rw [v2_restoreLoop_cons_ok]
      cases hexp : V2.isExpired now e with
      | true =>
        rw [if_pos rfl, ih hok' s htail]
        unfold v2_liveCount
        rw [List.filter_cons]
        simp [hexp]
      | false =>
        rw [if_neg (by simp)]
        have hknot : V2.decodeKey ks ∉ keysOf s.map := fun hm =>
          hhead (List.mem_append_right _ hm)
        have hhas : mapHas s.map (V2.decodeKey ks) = false := by
          cases hb : mapHas s.map (V2.decodeKey ks) with
          | false => rfl
          | true =>
            exact absurd ((mapHas_iff_mem_keysOf _ _).mp hb) hknot
        have hnd2 : (v2_blobKeys rest ++ keysOf (mapSet s.map
            (V2.decodeKey ks) e)).Nodup := by
          rw [keysOf_mapSet_of_not_has _ _ _ hhas]
          exact nodup_shift_append _ _ _
            (List.nodup_cons.mpr ⟨hhead, htail⟩)
        rw [ih hok' _ hnd2]
        show (mapSet s.map (V2.decodeKey ks) e).length + _ = _
        rw [length_mapSet_of_not_has _ _ _ hhas]
        unfold v2_liveCount
        rw [List.filter_cons]
        simp only [hexp]
        simp [List.length_cons]
        omega

theorem v2_restoreLoop_live (now : Int) (es : Blob (V2.Entry V)) :
    ∀ s : V2.State JKey V,
      (∀ p ∈ s.map, V2.isExpired now p.2 = false) →
      ∀ p ∈ (V2.restoreLoop now es s).map, V2.isExpired now p.2 = false := by
  induction es with
  | nil =>
    intro s h
    exact h
  | cons q rest ih =>
    obtain ⟨ks, be⟩ := q
    cases be with
    | null =>
      intro s h
      exact h
    | ok e =>
      intro s h
      rw [v2_restoreLoop_cons_ok]
      cases hexp : V2.isExpired now e with
      | true =>
        rw [if_pos rfl]
        exact ih s h
      | false =>
        rw [if_neg (by simp)]
        refine ih _ ?_
        intro p hp
        rcases mem_mapSet hp with hp2 | hp2
        · exact h p hp2
        · rw [hp2]
          exact hexp

theorem v2_cleanExpired_of_live (now : Int) (s : V2.State JKey V)
    (h : ∀ p ∈ s.map, V2.isExpired now p.2 = false) :
    V2.cleanExpired now s = s := by
  have hek : V2.expiredKeys now s = [] := by
    unfold V2.expiredKeys
    rw [show (s.map.filter (fun p => V2.isExpired now p.2)) = [] from ?_]
    · rfl
    · rw [List.filter_eq_nil_iff]
      intro p hp
      rw [h p hp]
      simp
  unfold V2.cleanExpired
  rw [hek]
  rfl

theorem v2_restoreLoop_append_null (now : Int) (pre : Blob (V2.Entry V))
    (ks : String) (post : Blob (V2.Entry V)) :
    ∀ s : V2.State JKey V,
      V2.restoreLoop now (pre ++ (ks, BlobEntry.null) :: post) s
        = V2.restoreLoop now pre s := by
  induction pre with
  | nil =>
    intro s
    rfl
  | cons q rest ih =>
    obtain ⟨ks', be⟩ := q
    cases be with
    | null =>
      intro s
      rfl
    | ok e =>
      intro s
      rw [List.cons_append, v2_restoreLoop_cons_ok, v2_restoreLoop_cons_ok]
      split
      · exact ih s
      · exact ih _

theorem p1_wf_insertNew (k : JKey) (e : P1.Entry V) (s : P1.State JKey V)
    (h : P1.Wf s) (hf : mapHas s.cache k = false) :
    P1.Wf { s with cache := mapSet s.cache k e, lru := k :: s.lru } := by
  obtain ⟨h1, h2, h3⟩ := h
  have hnk : k ∉ s.lru := fun hm => by
    have := (h3 k).mpr hm
    rw [hf] at this
    cases this
  refine ⟨?_, List.nodup_cons.mpr ⟨hnk, h2⟩, ?_⟩
  · show (keysOf (mapSet s.cache k e)).Nodup
    rw [keysOf_mapSet_of_not_has _ _ _ hf]
    have hknot : k ∉ keysOf s.cache := by
      rw [← mapHas_iff_mem_keysOf]
      simp [hf]
    simp [List.nodup_append, h1, hknot]
  · intro j
    show mapHas (mapSet s.cache k e) j = true ↔ j ∈ k :: s.lru
    unfold mapHas
    rw [mapFind?_mapSet, List.mem_cons]
    by_cases hj : k = j
    · subst hj
      simp
    · rw [if_neg hj, ← mapHas, h3]
      have hjk : ¬ j = k := fun hh => hj hh.symm
      simp [hjk]

theorem p1_restoreLoop_wf (now : Int) (es : Blob (P1.Entry V)) :
    ∀ s : P1.State JKey V, P1.Wf s →
      (p1_blobKeys es ++ keysOf s.cache).Nodup →
      P1.Wf (P1.restoreLoop now es s) := by
  induction es with
  | nil =>
    intro s h _
    exact h
  | cons p rest ih =>
    obtain ⟨ks, be⟩ := p
    cases be with
    | null =>
      intro s h _
      exact h
    | ok e =>
      intro s h hnd
      rw [show p1_blobKeys ((ks, BlobEntry.ok e) :: rest)
        = P1.parseKey ks :: p1_blobKeys rest from rfl,
        List.cons_append, List.nodup_cons] at hnd
      obtain ⟨hhead, htail⟩ := hnd
      rw [p1_restoreLoop_cons_ok]
      cases hexp : P1.isExpired now e with
      | true =>
        rw [if_pos rfl]
        exact ih s h htail
      | false =>
        rw [if_neg (by simp)]
        have hknot : P1.parseKey ks ∉ keysOf s.cache := fun hm =>
          hhead (List.mem_append_right _ hm)
        have hhas : mapHas s.cache (P1.parseKey ks) = false := by
          cases hb : mapHas s.cache (P1.parseKey ks) with
          | false => rfl
          | true =>
            exact absurd ((mapHas_iff_mem_keysOf _ _).mp hb) hknot
        refine ih _ (p1_wf_insertNew _ e s h hhas) ?_
        rw [show keysOf (mapSet s.cache (P1.parseKey ks) e) =
          keysOf s.cache ++ [P1.parseKey ks] from
          keysOf_mapSet_of_not_has _ _ _ hhas]
        exact nodup_shift_append _ _ _
          (List.nodup_cons.mpr ⟨hhead, htail⟩)

theorem p1_restoreLoop_length (now : Int) (es : Blob (P1.Entry V))
    (hok : ∀ p ∈ es, p.2 ≠ BlobEntry.null) :
    ∀ s : P1.State JKey V,
      (p1_blobKeys es ++ keysOf s.cache).Nodup →
      (P1.restoreLoop now es s).cache.length
        = s.cache.length + p1_liveCount now es := by
  induction es with
  | nil =>
    intro s _
    simp [P1.restoreLoop, p1_liveCount]
  | cons p rest ih =>
    obtain ⟨ks, be⟩ := p
    cases be with
    | null =>
      exact absurd rfl (hok (ks, BlobEntry.null) (List.mem_cons_self _ _))
    | ok e =>
      intro s hnd
      rw [show p1_blobKeys ((ks, BlobEntry.ok e) :: rest)
        = P1.parseKey ks :: p1_blobKeys rest from rfl,
        List.cons_append, List.nodup_cons] at hnd
      obtain ⟨hhead, htail⟩ := hnd
      have hok' : ∀ p ∈ rest, p.2 ≠ BlobEntry.null := fun p hp =>
        hok p (List.mem_cons_of_mem _ hp)
      rw [p1_restoreLoop_cons_ok]
      cases hexp : P1.isExpired now e with
      | true =>
        rw [if_pos rfl, ih hok' s htail]
        unfold p1_liveCount
        rw [List.filter_cons]
        simp [hexp]
      | false =>
        rw [if_neg (by simp)]
        have hknot : P1.parseKey ks ∉ keysOf s.cache := fun hm =>
          hhead (List.mem_append_right _ hm)
        have hhas : mapHas s.cache (P1.parseKey ks) = false := by
          cases hb : mapHas s.cache (P1.parseKey ks) with
          | false => rfl
          | true =>
            exact absurd ((mapHas_iff_mem_keysOf _ _).mp hb) hknot
        have hnd2 : (p1_blobKeys rest ++ keysOf (mapSet s.cache
            (P1.parseKey ks) e)).Nodup := by
          rw [keysOf_mapSet_of_not_has _ _ _ hhas]
          exact nodup_shift_append _ _ _
            (List.nodup_cons.mpr ⟨hhead, htail⟩)
        rw [ih hok' _ hnd2]
        show (mapSet s.cache (P1.parseKey ks) e).length + _ = _
        rw [length_mapSet_of_not_has _ _ _ hhas]
        unfold p1_liveCount
        rw [List.filter_cons]
        simp only [hexp]
        simp [List.length_cons]
        omega

theorem p1_restoreLoop_live (now : Int) (es : Blob (P1.Entry V)) :
    ∀ s : P1.State JKey V,
      (∀ p ∈ s.cache, P1.isExpired now p.2 = false) →
      ∀ p ∈ (P1.restoreLoop now es s).cache,
        P1.isExpired now p.2 = false := by
  induction es with
  | nil =>
    intro s h
    exact h
  | cons q rest ih =>
    obtain ⟨ks, be⟩ := q
    cases be with
    | null =>
      intro s h
      exact h
    | ok e =>
      intro s h
      rw [p1_restoreLoop_cons_ok]
      cases hexp : P1.isExpired now e with
      | true =>
        rw [if_pos rfl]
        exact ih s h
      | false =>
        rw [if_neg (by simp)]
        refine ih _ ?_
        intro p hp
        rcases mem_mapSet hp with hp2 | hp2
        · exact h p hp2
        · rw [hp2]
          exact hexp

theorem p1_cleanExpired_of_live (now : Int) (s : P1.State JKey V)
    (h : ∀ p ∈ s.cache, P1.isExpired now p.2 = false) :
    P1.cleanExpired now s = s := by
  have hek : P1.expiredKeys now s = [] := by
    unfold P1.expiredKeys
    rw [show (s.cache.filter (fun p => P1.isExpired now p.2)) = [] from ?_]
    · rfl
    · rw [List.filter_eq_nil_iff]
      intro p hp
      rw [h p hp]
      simp
  unfold P1.cleanExpired
  rw [hek]
  rfl

theorem p1_restoreLoop_append_null (now : Int) (pre : Blob (P1.Entry V))
    (ks : String) (post : Blob (P1.Entry V)) :
    ∀ s : P1.State JKey V,
      P1.restoreLoop now (pre ++ (ks, BlobEntry.null) :: post) s
        = P1.restoreLoop now pre s := by
  induction pre with
  | nil =>
    intro s
    rfl
  | cons q rest ih =>
    obtain ⟨ks', be⟩ := q
    cases be with
    | null =>
      intro s
      rfl
    | ok e =>
      intro s
      rw [List.cons_append, p1_restoreLoop_cons_ok, p1_restoreLoop_cons_ok]
      split
      · exact ih s
      · exact ih _

end RestoreLemmas

section ParseKeyLemmas

theorem p1_parseKey_num_iff (s : String) (n : Int) :
    P1.parseKey s = JKey.num n ↔ s = intToString n := by
  constructor
  · intro h
    unfold P1.parseKey at h
    by_cases h1 : s = "true"
    · rw [if_pos h1] at h
      cases h
    · rw [if_neg h1] at h
      by_cases h2 : s = "false"
      · rw [if_pos h2] at h
        cases h
      · rw [if_neg h2] at h
        cases hj : jsNumber? s with
        | none =>
          rw [hj] at h
          cases h
        | some m =>
          rw [hj] at h
          dsimp only at h
          by_cases h3 : intToString m = s
          · rw [if_pos h3] at h
            injection h with hmn
            rw [← h3, hmn]
          · rw [if_neg h3] at h
            cases h
  · rintro rfl
    unfold P1.parseKey
    rw [if_neg (intToString_ne_true n), if_neg (intToString_ne_false n),
      jsNumber?_intToString]
    dsimp only
    rw [if_pos rfl]

theorem p1_parseKey_bool_iff (s : String) (b : Bool) :
    P1.parseKey s = JKey.bool b ↔
      (b = true ∧ s = "true") ∨ (b = false ∧ s = "false") := by
  constructor
  · intro h
    unfold P1.parseKey at h
    by_cases h1 : s = "true"
    · rw [if_pos h1] at h
      injection h with hb
      exact Or.inl ⟨hb.symm, h1⟩
    · rw [if_neg h1] at h
      by_cases h2 : s = "false"
      · rw [if_pos h2] at h
        injection h with hb
        exact Or.inr ⟨hb.symm, h2⟩
      · rw [if_neg h2] at h
        cases hj : jsNumber? s with
        | none =>
          rw [hj] at h
          cases h
        | some m =>
          rw [hj] at h
          dsimp only at h
          by_cases h3 : intToString m = s
          · rw [if_pos h3] at h
            cases h
          · rw [if_neg h3] at h
            cases h
  · rintro (⟨rfl, rfl⟩ | ⟨rfl, rfl⟩)
    · rfl
    · rfl

theorem p1_parseKey_str_iff (s t : String) :
    P1.parseKey s = JKey.str t ↔
      t = s ∧ s ≠ "true" ∧ s ≠ "false" ∧ ∀ n : Int, s ≠ intToString n := by
  constructor
  · intro h
    by_cases h1 : s = "true"
    · rw [h1] at h
      cases h
    · by_cases h2 : s = "false"
      · rw [h2] at h
        cases h
      · have hnotnum : ∀ n : Int, s ≠ intToString n := by
          intro n hn
          have := (p1_parseKey_num_iff s n).mpr hn
          rw [this] at h
          cases h
        unfold P1.parseKey at h
        rw [if_neg h1, if_neg h2] at h
        cases hj : jsNumber? s with
        | none =>
          rw [hj] at h
          injection h with ht
          exact ⟨ht.symm, h1, h2, hnotnum⟩
        | some m =>
          rw [hj] at h
          dsimp only at h
          by_cases h3 : intToString m = s
          · rw [if_pos h3] at h
            cases h
          · rw [if_neg h3] at h
            injection h with ht
            exact ⟨ht.symm, h1, h2, hnotnum⟩
  · rintro ⟨rfl, h1, h2, hn⟩
    unfold P1.parseKey
    rw [if_neg h1, if_neg h2]
    cases hj : jsNumber? t with
    | none => rfl
    | some m =>
      dsimp only
      rw [if_neg (fun hh => hn m hh.symm)]

theorem p1_parseKey_inj : Function.Injective P1.parseKey := by
  intro a b h
  cases hpa : P1.parseKey a with
  | num n =>
    rw [hpa] at h
    have ha := (p1_parseKey_num_iff a n).mp hpa
    have hb := (p1_parseKey_num_iff b n).mp h.symm
    rw [ha, hb]
  | bool bb =>
    rw [hpa] at h
    have ha := (p1_parseKey_bool_iff a bb).mp hpa
    have hb := (p1_parseKey_bool_iff b bb).mp h.symm
    rcases ha with ⟨hb1, ha2⟩ | ⟨hb1, ha2⟩ <;>
      rcases hb with ⟨hb2, hb3⟩ | ⟨hb2, hb3⟩
    · rw [ha2, hb3]
    · rw [hb1] at hb2
      cases hb2
    · rw [hb1] at hb2
      cases hb2
    · rw [ha2, hb3]
  | str t =>
    rw [hpa] at h
    have ha := (p1_parseKey_str_iff a t).mp hpa
    have hb := (p1_parseKey_str_iff b t).mp h.symm
    rw [← ha.1, ← hb.1]

end ParseKeyLemmas

section TTLLemmas

variable {K V : Type} [DecidableEq K]

theorem p1_set_nonpos_ttl (now : Int) (k : K) (v : V) (t : Int)
    (s : P1.State K V) (ht : t ≤ 0) :
    mapFind? (P1.set now k v (some t) s).cache k
        = some ⟨v, none, now⟩ ∧
      (∀ t2, (P1.get t2 k (P1.set now k v (some t) s)).1 = some v) ∧
      (s.defaultTTL = 0 →
        P1.set now k v (some t) s = P1.set now k v none s) := by
  have hent : (if (some t).getD
      (P1.evictStep now k (P1.unlinkStep k s)).defaultTTL > 0 then
        some (now + (some t).getD
          (P1.evictStep now k (P1.unlinkStep k s)).defaultTTL)
      else none) = (none : Option Int) := by
    rw [if_neg]
    show ¬ ((t : Int) > 0)
    omega
  have hfind : mapFind? (P1.set now k v (some t) s).cache k
      = some ⟨v, none, now⟩ := by
    unfold P1.set
    rw [p1_storeStep_def]
    show mapFind? (mapSet _ k _) k = _
    rw [mapFind?_mapSet, if_pos rfl, hent]
  refine ⟨hfind, ?_, ?_⟩
  · intro t2
    unfold P1.get
    rw [hfind]
    dsimp only
    rw [if_neg]
    intro hc
    rw [show P1.isExpired t2 (⟨v, none, now⟩ : P1.Entry V) = false
      from rfl] at hc
    cases hc
  · intro hd
    have hdttl : (P1.evictStep now k (P1.unlinkStep k s)).defaultTTL = 0 := by
      rw [(p1_evictStep_fields now k _).2, (p1_unlinkStep_fields k s).2.2, hd]
    unfold P1.set
    rw [p1_storeStep_def, p1_storeStep_def, hent, hdttl]
    rw [show (if (none : Option Int).getD 0 > 0 then
      some (now + (none : Option Int).getD 0) else none)
        = (none : Option Int) from rfl]

end TTLLemmas

section WfCharacterization

variable {K V : Type} [DecidableEq K]

theorem v2_wf_iff (s : V2.State K V) :
    V2.Wf s ↔ ((keysOf s.map).Nodup ∧ s.lru.Nodup ∧
      (∀ k ∈ s.lru, mapHas s.map k = true) ∧
      (∀ k ∈ keysOf s.map, k ∈ s.lru)) := by
  constructor
  · rintro ⟨h1, h2, h3⟩
    exact ⟨h1, h2, fun k hk => (h3 k).mpr hk,
      fun k hk => (h3 k).mp ((mapHas_iff_mem_keysOf _ _).mpr hk)⟩
  · rintro ⟨h1, h2, h3, h4⟩
    exact ⟨h1, h2, fun k =>
      ⟨fun hh => h4 k ((mapHas_iff_mem_keysOf _ _).mp hh),
       fun hk => h3 k hk⟩⟩

theorem p1_wf_iff (s : P1.State K V) :
    P1.Wf s ↔ ((keysOf s.cache).Nodup ∧ s.lru.Nodup ∧
      (∀ k ∈ s.lru, mapHas s.cache k = true) ∧
      (∀ k ∈ keysOf s.cache, k ∈ s.lru)) := by
  constructor
  · rintro ⟨h1, h2, h3⟩
    exact ⟨h1, h2, fun k hk => (h3 k).mpr hk,
      fun k hk => (h3 k).mp ((mapHas_iff_mem_keysOf _ _).mpr hk)⟩
  · rintro ⟨h1, h2, h3, h4⟩
    exact ⟨h1, h2, fun k =>
      ⟨fun hh => h4 k ((mapHas_iff_mem_keysOf _ _).mp hh),
       fun hk => h3 k hk⟩⟩

theorem v2_wf_length_eq (s : V2.State K V) (h : V2.Wf s) :
    s.map.length = s.lru.length := by
  have hperm : List.Perm (keysOf s.map) s.lru :=
    (List.perm_ext_iff_of_nodup h.1 h.2.1).mpr (fun a => by
      rw [← mapHas_iff_mem_keysOf]
      exact h.2.2 a)
  rw [← length_keysOf s.map]
  exact hperm.length_eq

theorem p1_wf_length_eq (s : P1.State K V) (h : P1.Wf s) :
    s.cache.length = s.lru.length := by
  have hperm : List.Perm (keysOf s.cache) s.lru :=
    (List.perm_ext_iff_of_nodup h.1 h.2.1).mpr (fun a => by
      rw [← mapHas_iff_mem_keysOf]
      exact h.2.2 a)
  rw [← length_keysOf s.cache]
  exact hperm.length_eq

theorem v2_wf_empty_iff (s : V2.State K V) (h : V2.Wf s) :
    s.map = [] ↔ s.lru = [] := by
  have hlen := v2_wf_length_eq s h
  constructor
  · intro hm
    rw [hm] at hlen
    exact List.eq_nil_of_length_eq_zero hlen.symm
  · intro hl
    rw [hl] at hlen
    exact List.eq_nil_of_length_eq_zero hlen

theorem p1_wf_empty_iff (s : P1.State K V) (h : P1.Wf s) :
    s.cache = [] ↔ s.lru = [] := by
  have hlen := p1_wf_length_eq s h
  constructor
  · intro hm
    rw [hm] at hlen
    exact List.eq_nil_of_length_eq_zero hlen.symm
  · intro hl
    rw [hl] at hlen
    exact List.eq_nil_of_length_eq_zero hlen

theorem v2_isExpired_of (now : Int) (e : V2.Entry V) (t : Int)
    (h1 : e.expiresAt = some t) (h2 : now > t) :
    V2.isExpired now e = true := by
  unfold V2.isExpired
  rw [h1]
  simpa using h2

theorem p1_isExpired_of (now : Int) (e : P1.Entry V) (t : Int)
    (h1 : e.expiresAt = some t) (h2 : now > t) :
    P1.isExpired now e = true := by
  unfold P1.isExpired
  rw [h1]
  simpa using h2

end WfCharacterization

section SequenceLemmas

variable {K V : Type} [DecidableEq K]

theorem v2_applySets_cons (c : SetCall K V) (rest : List (SetCall K V))
    (s : V2.State K V) :
    v2_applySets (c :: rest) s
      = v2_applySets rest (V2.set c.now c.key c.value c.ttl s) := rfl

theorem p1_applySets_cons (c : SetCall K V) (rest : List (SetCall K V))
    (s : P1.State K V) :
    p1_applySets (c :: rest) s
      = p1_applySets rest (P1.set c.now c.key c.value c.ttl s) := rfl

theorem v2_applySets_inv (N : Nat) (hm : 1 ≤ N)
    (calls : List (SetCall K V)) :
    ∀ s : V2.State K V, V2.Wf s → s.maxSize = some N →
      s.map.length ≤ N →
      V2.Wf (v2_applySets calls s) ∧
        (v2_applySets calls s).maxSize = some N ∧
        (v2_applySets calls s).map.length ≤ N := by
  induction calls with
  | nil =>
    intro s h1 h2 h3
    exact ⟨h1, h2, h3⟩
  | cons c rest ih =>
    intro s h1 h2 h3
    rw [v2_applySets_cons]
    refine ih _ (v2_wf_set c.now c.key c.value c.ttl s h1) ?_ ?_
    · rw [v2_set_maxSize]
      exact h2
    · exact v2_set_length_le c.now c.key c.value c.ttl s h1 N h2 hm h3

theorem p1_applySets_inv (N : Nat) (hm : 1 ≤ N)
    (calls : List (SetCall K V)) :
    ∀ s : P1.State K V, P1.Wf s → s.maxSize = N →
      s.cache.length ≤ N →
      P1.Wf (p1_applySets calls s) ∧
        (p1_applySets calls s).maxSize = N ∧
        (p1_applySets calls s).cache.length ≤ N := by
  induction calls with
  | nil =>
    intro s h1 h2 h3
    exact ⟨h1, h2, h3⟩
  | cons c rest ih =>
    intro s h1 h2 h3
    rw [p1_applySets_cons]
    refine ih _ (p1_wf_set c.now c.key c.value c.ttl s h1) ?_ ?_
    · rw [p1_set_maxSize]
      exact h2
    · have := p1_set_length_le c.now c.key c.value c.ttl s h1
        (by rw [h2]; exact hm) (by rw [h2]; exact h3)
      rw [h2] at this
      exact this

end SequenceLemmas

/-! ## Claim theorems -/

/-- Claim C1 (eviction contract): in both implementations, whenever the
eviction step run by `set` on a brand-new key removes an entry, that
entry is either expired or the least-recently-used live entry (the tail
of the Recency Index restricted to live entries; in `P1` the plain tail,
which only falls to eviction when no entry at all is expired); and no
expired entry is ever kept alive by eviction while a live entry is
evicted (in `V2` every expired entry is removed; in `P1` a live entry
is only removed when no expired entry exists). -/
theorem claim_c1_eviction_contract :
    (∀ (K V : Type) [DecidableEq K] (now : Int) (s : V2.State K V),
      V2.Wf s →
      (∀ (k : K) (e : V2.Entry V), mapFind? s.map k = some e →
        mapHas (V2.evictLRU now s).map k = false →
        V2.isExpired now e = true ∨
          (V2.isExpired now e = false ∧
            (v2_liveLru now s).getLast? = some k)) ∧
      (∀ (k : K) (e : V2.Entry V), mapFind? s.map k = some e →
        V2.isExpired now e = true →
        mapHas (V2.evictLRU now s).map k = false)) ∧
    (∀ (K V : Type) [DecidableEq K] (now : Int) (s : P1.State K V),
      P1.Wf s →
      ∀ (k : K) (e : P1.Entry V), mapFind? s.cache k = some e →
        mapHas (P1.evictLRU now s).cache k = false →
        P1.isExpired now e = true ∨
          (P1.isExpired now e = false ∧ s.lru.getLast? = some k ∧
            ∀ j ej, mapFind? s.cache j = some ej →
              P1.isExpired now ej = false)) := by
  refine ⟨?_, ?_⟩
  · intro K V _ now s h
    exact ⟨fun k e hf hg => v2_evict_tail_or_expired now s h k e hf hg,
           fun k e hf he => v2_evict_removes_expired now s h k e hf he⟩
  · intro K V _ now s h k e hf hg
    exact p1_evict_one now s h k e hf hg

/-- Witness for C1 at a concrete state: a cache at capacity 2 with an
expired entry "a" and a live entry "b"; the eviction step removes "a",
and the theorem certifies it was expired-or-tail. -/
theorem claim_c1_witness :
    V2.isExpired 0 (⟨1, some (-1)⟩ : V2.Entry Nat) = true ∨
      (V2.isExpired 0 (⟨1, some (-1)⟩ : V2.Entry Nat) = false ∧
        (v2_liveLru 0 (⟨[("a", ⟨1, some (-1)⟩), ("b", ⟨2, none⟩)],
          ["b", "a"], some 2, none⟩ : V2.State String Nat)).getLast?
            = some "a") :=
  (claim_c1_eviction_contract.1 String Nat 0
    (⟨[("a", ⟨1, some (-1)⟩), ("b", ⟨2, none⟩)], ["b", "a"],
      some 2, none⟩ : V2.State String Nat)
    ((v2_wf_iff _).mpr (by decide))).1 "a" ⟨1, some (-1)⟩
    (by decide) (by decide)

/-- Claim C2 (expiry invariant): once the current time exceeds a live
entry's `expiresAt`, `get` returns absent, `has` returns `false`, and
`size` excludes the key; the discovering call removes the key from both
the Store Map and the Recency Index; and an absent key stays absent
under every operation other than a `set` of that key (reads of an
absent key also leave the state unchanged).  Stated for both
implementations: `V2` and `P1` each get the discovering-call behavior
and the absence-preservation block. -/
theorem claim_c2_expiry_invariant :
    (∀ (K V : Type) [DecidableEq K] (now : Int) (k : K)
      (s : V2.State K V), V2.Wf s →
      ∀ (e : V2.Entry V) (t : Int), mapFind? s.map k = some e →
        e.expiresAt = some t → now > t →
        (V2.get now k s).1 = none ∧
        mapHas (V2.get now k s).2.map k = false ∧
        k ∉ (V2.get now k s).2.lru ∧
        (V2.has now k s).1 = false ∧
        mapHas (V2.has now k s).2.map k = false ∧
        k ∉ (V2.has now k s).2.lru ∧
        mapFind? (V2.size now s).2.map k = none ∧
        k ∉ (V2.size now s).2.lru) ∧
    (∀ (K V : Type) [DecidableEq K] (k : K) (s : V2.State K V),
      V2.Wf s → mapFind? s.map k = none →
      (∀ now, V2.get now k s = (none, s)) ∧
      (∀ now, V2.has now k s = (false, s)) ∧
      (∀ (now : Int) (j : K) (v : V) (ttl : Option Int), j ≠ k →
        mapFind? (V2.set now j v ttl s).map k = none) ∧
      (∀ now j, mapFind? (V2.get now j s).2.map k = none) ∧
      (∀ now j, mapFind? (V2.has now j s).2.map k = none) ∧
      (∀ j, mapFind? (V2.delete j s).map k = none) ∧
      (∀ now, mapFind? (V2.size now s).2.map k = none) ∧
      mapFind? (V2.clear s).map k = none) ∧
    (∀ (K V : Type) [DecidableEq K] (now : Int) (k : K)
      (s : P1.State K V), P1.Wf s →
      ∀ (e : P1.Entry V) (t : Int), mapFind? s.cache k = some e →
        e.expiresAt = some t → now > t →
        (P1.has now k s).1 = false ∧
        mapHas (P1.has now k s).2.cache k = false ∧
        k ∉ (P1.has now k s).2.lru ∧
        (P1.get now k s).1 = none ∧
        mapHas (P1.get now k s).2.cache k = false ∧
        k ∉ (P1.get now k s).2.lru ∧
        mapFind? (P1.size now s).2.cache k = none ∧
        k ∉ (P1.size now s).2.lru) ∧
    (∀ (K V : Type) [DecidableEq K] (k : K) (s : P1.State K V),
      P1.Wf s → mapFind? s.cache k = none →
      (∀ now, P1.get now k s = (none, s)) ∧
      (∀ now, P1.has now k s = (false, s)) ∧
      (∀ (now : Int) (j : K) (v : V) (ttl : Option Int), j ≠ k →
        mapFind? (P1.set now j v ttl s).cache k = none) ∧
      (∀ now j, mapFind? (P1.get now j s).2.cache k = none) ∧
      (∀ now j, mapFind? (P1.has now j s).2.cache k = none) ∧
      (∀ j, mapFind? (P1.delete j s).cache k = none) ∧
      (∀ now, mapFind? (P1.size now s).2.cache k = none) ∧
      mapFind? (P1.clear s).cache k = none) := by
  refine ⟨?_, ?_, ?_, ?_⟩
  · intro K V _ now k s h e t hf hea hgt
    have hexp := v2_isExpired_of now e t hea hgt
    obtain ⟨g1, g2, g3⟩ := v2_get_expired now k s h e hf hexp
    obtain ⟨b1, b2, b3⟩ := v2_has_expired now k s h e hf hexp
    obtain ⟨z1, z2⟩ := v2_size_expired now k s h e hf hexp
    exact ⟨g1, g2, g3, b1, b2, b3, z1, z2⟩
  · intro K V _ k s h hf
    refine ⟨fun now => v2_get_absent now k s hf,
      fun now => v2_has_absent now k s hf,
      fun now j v ttl hjk => v2_set_preserves_none now j v ttl k s h hjk hf,
      fun now j => v2_get_preserves_none now j k s h hf,
      fun now j => v2_has_preserves_none now j k s h hf,
      fun j => v2_delete_preserves_none j k s h.1 hf,
      fun now => v2_cleanExpired_preserves_none now k s h.1 hf,
      rfl⟩
  · intro K V _ now k s h e t hf hea hgt
    have hexp := p1_isExpired_of now e t hea hgt
    obtain ⟨b1, b2, b3⟩ := p1_has_expired now k s h e hf hexp
    obtain ⟨g1, g2, g3⟩ := p1_get_expired now k s h e hf hexp
    obtain ⟨z1, z2⟩ := p1_size_expired now k s h e hf hexp
    exact ⟨b1, b2, b3, g1, g2, g3, z1, z2⟩
  · intro K V _ k s h hf
    refine ⟨fun now => p1_get_absent now k s hf,
      fun now => p1_has_absent now k s hf,
      fun now j v ttl hjk => p1_set_preserves_none now j v ttl k s h hjk hf,
      fun now j => p1_get_preserves_none now j k s h hf,
      fun now j => p1_has_preserves_none now j k s h hf,
      fun j => p1_delete_preserves_none j k s h hf,
      fun now => p1_cleanExpired_preserves_none now k s h hf,
      rfl⟩

/-- Witness for C2: a singleton cache whose entry expired at time 3,
read at time 10. -/
theorem claim_c2_witness :
    (V2.get 10 "a" (⟨[("a", ⟨5, some 3⟩)], ["a"], none,
      none⟩ : V2.State String Nat)).1 = none :=
  ((claim_c2_expiry_invariant.1 String Nat 10 "a"
    (⟨[("a", ⟨5, some 3⟩)], ["a"], none, none⟩ : V2.State String Nat)
    ((v2_wf_iff _).mpr (by decide)) ⟨5, some 3⟩ 3
    (by decide) (by decide) (by decide))).1

/-- Counterexample to claim C3 as stated: with `maxSize = 0` a single
`set` yields `size() = 1 > 0` in both implementations, so the capacity
invariant fails for `N = 0`. -/
theorem claim_c3_counterexample :
    ¬ ((V2.size 0 (V2.set 0 "a" (1 : Nat) none
        (V2.construct (some 0) none))).1 ≤ 0) ∧
    ¬ ((P1.size 0 (P1.set 0 "a" (1 : Nat) none
        (P1.construct 0 none))).1 ≤ 0) := by decide

/-- Claim C3 as amended (capacity invariant): for every capacity
`N ≥ 1` and every finite sequence of `set` calls starting from the
empty cache, `size() ≤ N` holds after every call, in both
implementations. -/
theorem claim_c3_amended :
    ∀ (K V : Type) [DecidableEq K] (N : Nat), 1 ≤ N →
      (∀ (dttl : Option Int) (calls : List (SetCall K V)) (now : Int),
        (V2.size now (v2_applySets calls
          (V2.construct (some N) dttl))).1 ≤ N) ∧
      (∀ (dttl : Option Int) (calls : List (SetCall K V)) (now : Int),
        (P1.size now (p1_applySets calls (P1.construct N dttl))).1 ≤ N) := by
  intro K V _ N hN
  constructor
  · intro dttl calls now
    have hinv := v2_applySets_inv N hN calls (V2.construct (some N) dttl)
      (v2_wf_construct _ _) rfl (by simp [V2.construct])
    calc (V2.size now (v2_applySets calls (V2.construct (some N) dttl))).1
        = (V2.cleanExpired now
            (v2_applySets calls (V2.construct (some N) dttl))).map.length :=
          rfl
      _ ≤ (v2_applySets calls (V2.construct (some N) dttl)).map.length :=
          v2_cleanExpired_length_le _ _
      _ ≤ N := hinv.2.2
  · intro dttl calls now
    have hinv := p1_applySets_inv N hN calls (P1.construct N dttl)
      (p1_wf_construct _ _) rfl (by simp [P1.construct])
    calc (P1.size now (p1_applySets calls (P1.construct N dttl))).1
        = (P1.cleanExpired now
            (p1_applySets calls (P1.construct N dttl))).cache.length :=
          rfl
      _ ≤ (p1_applySets calls (P1.construct N dttl)).cache.length :=
          p1_cleanExpired_length_le _ _ hinv.1
      _ ≤ N := hinv.2.2

/-- Witness for the amended C3 at capacity 1 and a two-call sequence. -/
theorem claim_c3_witness :
    (V2.size 0 (v2_applySets
      [⟨0, "a", 5, none⟩, ⟨1, "b", 6, none⟩]
      (V2.construct (some 1) none))).1 ≤ 1 :=
  (claim_c3_amended String Nat 1 (by norm_num)).1 none
    [⟨0, "a", 5, none⟩, ⟨1, "b", 6, none⟩] 0

/-- Counterexample to claim C4 as stated: in the `V2` implementation an
explicit `ttl = 0` stores `expiresAt = now`, so at any strictly later
time `get` returns absent, unlike `set` without a TTL on a cache with
no `defaultTTL`, which returns the value. -/
theorem claim_c4_counterexample :
    (V2.get 1 "k" (V2.set 0 "k" (7 : Nat) (some 0)
      (V2.construct none none))).1 = none ∧
    (V2.get 1 "k" (V2.set 0 "k" (7 : Nat) none
      (V2.construct none none))).1 = some 7 := by decide

/-- Claim C4 as amended: in the `part_001` implementation, `set` with an
explicit `ttl ≤ 0` stores an entry with no expiry, every later `get`
returns the value, and on a cache with no configured `defaultTTL`
(`defaultTTL = 0`) the resulting state is identical to `set` without a
TTL; in the `v2` implementation an explicit `ttl ≤ 0` instead yields
`expiresAt = now + ttl`, an already-past expiry. -/
theorem claim_c4_amended :
    ∀ (K V : Type) [DecidableEq K] (now : Int) (k : K) (v : V) (t : Int)
      (s : P1.State K V), t ≤ 0 →
      mapFind? (P1.set now k v (some t) s).cache k
          = some ⟨v, none, now⟩ ∧
        (∀ t2, (P1.get t2 k (P1.set now k v (some t) s)).1 = some v) ∧
        (s.defaultTTL = 0 →
          P1.set now k v (some t) s = P1.set now k v none s) := by
  intro K V _ now k v t s ht
  exact p1_set_nonpos_ttl now k v t s ht

/-- Witness for the amended C4: `ttl = 0` at time 0, read at time 9. -/
theorem claim_c4_witness :
    (P1.get 9 "k" (P1.set 0 "k" (7 : Nat) (some 0)
      (P1.construct 5 none))).1 = some 7 :=
  (claim_c4_amended String Nat 0 "k" 7 0 (P1.construct 5 none)
    (by norm_num)).2.1 9

/-- Claim C5 (LRU order with promotion): with capacity 3 and no
expirations, after `set a; set b; set c; get a; set d` the evicted key
is `b`: `has a`, `has c`, `has d` hold and `has b` fails, in both
implementations. -/
theorem claim_c5_lru_promotion :
    (V2.has 0 "a" c5v2state).1 = true ∧
    (V2.has 0 "b" c5v2state).1 = false ∧
    (V2.has 0 "c" c5v2state).1 = true ∧
    (V2.has 0 "d" c5v2state).1 = true ∧
    (P1.has 0 "a" c5p1state).1 = true ∧
    (P1.has 0 "b" c5p1state).1 = false ∧
    (P1.has 0 "c" c5p1state).1 = true ∧
    (P1.has 0 "d" c5p1state).1 = true := by decide

/-- Claim C6 (persistence round-trip): a persistence-enabled cache
holding exactly x ↦ 100, y ↦ "s", z ↦ true with no TTL, serialized and
restored by a fresh instance against the same persistence name, yields
`get` results identical to the original for every key and the same
`size() = 3`, in both implementations. -/
theorem claim_c6_round_trip :
    (V2.get 5 (JKey.str "x") c6v2restored).1 = some (JVal.num 100) ∧
    (V2.get 5 (JKey.str "y") c6v2restored).1 = some (JVal.str "s") ∧
    (V2.get 5 (JKey.str "z") c6v2restored).1 = some (JVal.bool true) ∧
    (V2.size 5 c6v2restored).1 = 3 ∧
    (V2.get 5 (JKey.str "x") c6v2restored).1
      = (V2.get 5 (JKey.str "x") c6v2orig).1 ∧
    (V2.get 5 (JKey.str "y") c6v2restored).1
      = (V2.get 5 (JKey.str "y") c6v2orig).1 ∧
    (V2.get 5 (JKey.str "z") c6v2restored).1
      = (V2.get 5 (JKey.str "z") c6v2orig).1 ∧
    (V2.size 5 c6v2restored).1 = (V2.size 5 c6v2orig).1 ∧
    (P1.get 5 (JKey.str "x") c6p1restored).1 = some (JVal.num 100) ∧
    (P1.get 5 (JKey.str "y") c6p1restored).1 = some (JVal.str "s") ∧
    (P1.get 5 (JKey.str "z") c6p1restored).1 = some (JVal.bool true) ∧
    (P1.size 5 c6p1restored).1 = 3 ∧
    (P1.size 5 c6p1restored).1 = (P1.size 5 c6p1orig).1 := by decide

/-- Claim C7 (key type decoding on restore): `parseKey` decodes a blob
string to a number exactly when it is the canonical string form of that
number, to a boolean exactly when it is "true" or "false", and to the
original string otherwise; hence a numeric or boolean key written via
`String(key)` decodes back to the same key. -/
theorem claim_c7_key_decoding :
    (∀ (s : String) (n : Int),
      P1.parseKey s = JKey.num n ↔ s = intToString n) ∧
    (∀ (s : String) (b : Bool),
      P1.parseKey s = JKey.bool b ↔
        (b = true ∧ s = "true") ∨ (b = false ∧ s = "false")) ∧
    (∀ (s t : String),
      P1.parseKey s = JKey.str t ↔
        t = s ∧ s ≠ "true" ∧ s ≠ "false" ∧
          ∀ n : Int, s ≠ intToString n) ∧
    (∀ n : Int, P1.parseKey (jkeyToString (JKey.num n)) = JKey.num n) ∧
    (∀ b : Bool, P1.parseKey (jkeyToString (JKey.bool b))
      = JKey.bool b) := by
  refine ⟨p1_parseKey_num_iff, p1_parseKey_bool_iff, p1_parseKey_str_iff,
    ?_, ?_⟩
  · intro n
    exact (p1_parseKey_num_iff (jkeyToString (JKey.num n)) n).mpr rfl
  · intro b
    cases b <;> rfl

/-- Witness for C7 at concrete strings: "42" decodes to the number 42,
"true" to the boolean `true`, and the non-canonical "01" stays the
string "01". -/
theorem claim_c7_witness :
    P1.parseKey "42" = JKey.num 42 ∧
    P1.parseKey "true" = JKey.bool true ∧
    P1.parseKey "01" = JKey.str "01" :=
  ⟨(claim_c7_key_decoding.1 "42" 42).mpr (by decide),
   (claim_c7_key_decoding.2.1 "true" true).mpr (Or.inl ⟨rfl, rfl⟩),
   by decide⟩

/-- Counterexample to claim C8 as stated: a blob whose first entry is
well-formed and whose second is `null` (so deserialization throws on
it) leaves the cache NON-empty after construction — the restore is not
all-or-nothing, in either implementation. -/
theorem claim_c8_counterexample :
    (V2.loadFromStorage 0 (Stored.blob
      [("a", BlobEntry.ok ⟨JVal.num 1, none⟩), ("b", BlobEntry.null)])
      (V2.construct none none)).map ≠ [] ∧
    (P1.loadFromStorage 0 (Stored.blob
      [("a", BlobEntry.ok ⟨JVal.num 1, none, 0⟩), ("b", BlobEntry.null)])
      (P1.construct 10 none)).cache ≠ [] := by decide

/-- Claim C8 as amended: if the persisted blob itself fails to parse
(or is absent), the constructor restores nothing; if deserialization
throws on an entry mid-iteration, the entries already restored before
the failing entry remain and the rest of the blob is skipped — the
restore is abandoned at the failure point, not rolled back. -/
theorem claim_c8_amended :
    (∀ (V : Type) (now : Int) (s : V2.State JKey V),
      V2.loadFromStorage now Stored.corrupt s = s ∧
      V2.loadFromStorage now Stored.absent s = s) ∧
    (∀ (V : Type) (now : Int) (pre : Blob (V2.Entry V)) (ks : String)
      (post : Blob (V2.Entry V)) (s : V2.State JKey V),
      V2.loadFromStorage now
          (Stored.blob (pre ++ (ks, BlobEntry.null) :: post)) s
        = V2.restoreLoop now pre s) ∧
    (∀ (V : Type) (now : Int) (s : P1.State JKey V),
      P1.loadFromStorage now Stored.corrupt s = s ∧
      P1.loadFromStorage now Stored.absent s = s) ∧
    (∀ (V : Type) (now : Int) (pre : Blob (P1.Entry V)) (ks : String)
      (post : Blob (P1.Entry V)) (s : P1.State JKey V),
      P1.loadFromStorage now
          (Stored.blob (pre ++ (ks, BlobEntry.null) :: post)) s
        = P1.restoreLoop now pre s) := by
  refine ⟨?_, ?_, ?_, ?_⟩
  · intro V now s
    exact ⟨rfl, rfl⟩
  · intro V now pre ks post s
    exact v2_restoreLoop_append_null now pre ks post s
  · intro V now s
    exact ⟨rfl, rfl⟩
  · intro V now pre ks post s
    exact p1_restoreLoop_append_null now pre ks post s

/-- Counterexample to claim C9 as stated: constructing a `V2` cache
against a blob whose distinct string keys "1" and "01" both decode to
the number key 1 yields a Store Map with one entry but a Recency Index
with two nodes — the structures disagree on cardinality right after
construction completes. -/
theorem claim_c9_counterexample :
    (V2.loadFromStorage 0 (Stored.blob
      [("1", BlobEntry.ok ⟨JVal.num 10, none⟩),
       ("01", BlobEntry.ok ⟨JVal.num 20, none⟩)])
      (V2.construct none none)).map.length = 1 ∧
    (V2.loadFromStorage 0 (Stored.blob
      [("1", BlobEntry.ok ⟨JVal.num 10, none⟩),
       ("01", BlobEntry.ok ⟨JVal.num 20, none⟩)])
      (V2.construct none none)).lru.length = 2 := by decide

/-- Claim C9 as amended (structural lockstep): in both implementations
every public operation (`set`, `get`, `has`, `delete`, `clear`, `size`)
and plain construction preserve the lockstep invariant — unique map
keys, one recency node per key, equal key sets, hence equal cardinality
and head/tail empty exactly when the map is empty; construction against
a persisted blob preserves it provided the blob's decoded keys are
pairwise distinct (automatic in `part_001` for a JSON object's distinct
string keys, since `parseKey` is injective, but violable in `v2`). -/
theorem claim_c9_amended :
    (∀ (K V : Type) [DecidableEq K],
      (∀ (m : Option Nat) (d : Option Int),
        V2.Wf (V2.construct m d : V2.State K V)) ∧
      (∀ (m : Nat) (d : Option Int),
        P1.Wf (P1.construct m d : P1.State K V)) ∧
      (∀ s : V2.State K V, V2.Wf s →
        (∀ (now : Int) (k : K) (v : V) (ttl : Option Int),
          V2.Wf (V2.set now k v ttl s)) ∧
        (∀ now k, V2.Wf (V2.get now k s).2) ∧
        (∀ now k, V2.Wf (V2.has now k s).2) ∧
        (∀ k, V2.Wf (V2.delete k s)) ∧
        V2.Wf (V2.clear s) ∧
        (∀ now, V2.Wf (V2.size now s).2) ∧
        s.map.length = s.lru.length ∧
        (s.map = [] ↔ s.lru = [])) ∧
      (∀ s : P1.State K V, P1.Wf s →
        (∀ (now : Int) (k : K) (v : V) (ttl : Option Int),
          P1.Wf (P1.set now k v ttl s)) ∧
        (∀ now k, P1.Wf (P1.get now k s).2) ∧
        (∀ now k, P1.Wf (P1.has now k s).2) ∧
        (∀ k, P1.Wf (P1.delete k s)) ∧
        P1.Wf (P1.clear s) ∧
        (∀ now, P1.Wf (P1.size now s).2) ∧
        s.cache.length = s.lru.length ∧
        (s.cache = [] ↔ s.lru = []))) ∧
    (∀ (V : Type) (now : Int) (es : Blob (V2.Entry V)) (m : Option Nat)
      (d : Option Int), (v2_blobKeys es).Nodup →
      V2.Wf (V2.loadFromStorage now (Stored.blob es)
        (V2.construct m d))) ∧
    (∀ (V : Type) (now : Int) (es : Blob (P1.Entry V)) (m : Nat)
      (d : Option Int), (es.map Prod.fst).Nodup →
      P1.Wf (P1.loadFromStorage now (Stored.blob es)
        (P1.construct m d))) := by
  refine ⟨?_, ?_, ?_⟩
  · intro K V _
    refine ⟨fun m d => v2_wf_construct m d,
      fun m d => p1_wf_construct m d, ?_, ?_⟩
    · intro s h
      exact ⟨fun now k v ttl => v2_wf_set now k v ttl s h,
        fun now k => v2_wf_get now k s h,
        fun now k => v2_wf_has now k s h,
        fun k => v2_wf_delete k s h,
        v2_wf_clear s,
        fun now => v2_wf_size now s h,
        v2_wf_length_eq s h,
        v2_wf_empty_iff s h⟩
    · intro s h
      exact ⟨fun now k v ttl => p1_wf_set now k v ttl s h,
        fun now k => p1_wf_get now k s h,
        fun now k => p1_wf_has now k s h,
        fun k => p1_wf_delete k s h,
        p1_wf_clear s,
        fun now => p1_wf_size now s h,
        p1_wf_length_eq s h,
        p1_wf_empty_iff s h⟩
  · intro V now es m d hnd
    refine v2_restoreLoop_wf now es _ (v2_wf_construct m d) ?_
    rw [show keysOf (V2.construct m d : V2.State JKey V).map = []
      from rfl, List.append_nil]
    exact hnd
  · intro V now es m d hnd
    refine p1_restoreLoop_wf now es _ (p1_wf_construct m d) ?_
    rw [show keysOf (P1.construct m d : P1.State JKey V).cache = []
      from rfl, List.append_nil]
    have heq : p1_blobKeys es = (es.map Prod.fst).map P1.parseKey := by
      unfold p1_blobKeys
      rw [List.map_map]
      rfl
    rw [heq]
    exact hnd.map p1_parseKey_inj

/-- Witness for the amended C9: the invariant holds after one `set` on
a fresh cache, and after construction against a two-entry blob whose
keys decode distinctly. -/
theorem claim_c9_witness :
    V2.Wf (V2.set 0 "a" (1 : Nat) none (V2.construct (some 3) none)) ∧
    P1.Wf (P1.loadFromStorage 0 (Stored.blob
      [("x", BlobEntry.ok ⟨JVal.num 1, none, 0⟩),
       ("y", BlobEntry.ok ⟨JVal.num 2, none, 0⟩)])
      (P1.construct 5 none)) :=
  ⟨((claim_c9_amended.1 String Nat).2.2.1
      (V2.construct (some 3) none)
      ((claim_c9_amended.1 String Nat).1 (some 3) none)).1 0 "a" 1 none,
   claim_c9_amended.2.2 JVal 0
     [("x", BlobEntry.ok ⟨JVal.num 1, none, 0⟩),
      ("y", BlobEntry.ok ⟨JVal.num 2, none, 0⟩)] 5 none (by decide)⟩

/-- Counterexample to claim C10 as stated: a blob with two non-expired
entries under distinct string keys "1" and "01" restores into a single
`V2` map entry (both decode to the number key 1), so with `maxSize = 1`
the size after construction is 1, not greater than 1. -/
theorem claim_c10_counterexample :
    v2_liveCount 0 c10blob = 2 ∧
    ¬ ((V2.size 0 (V2.loadFromStorage 0 (Stored.blob c10blob)
      (V2.construct (some 1) none))).1 > 1) := by decide

/-- Claim C10 as amended: restore is not capacity-limited — for a
well-formed blob whose decoded keys are pairwise distinct,
`loadFromStorage` inserts every non-expired entry without running
eviction, so the size right after construction equals the number of
non-expired blob entries even when that exceeds `maxSize`, in both
implementations (for `P1`, distinct string keys suffice). -/
theorem claim_c10_amended :
    (∀ (V : Type) (now : Int) (es : Blob (V2.Entry V)) (N : Nat)
      (d : Option Int), (∀ p ∈ es, p.2 ≠ BlobEntry.null) →
      (v2_blobKeys es).Nodup →
      (V2.size now (V2.loadFromStorage now (Stored.blob es)
        (V2.construct (some N) d))).1 = v2_liveCount now es) ∧
    (∀ (V : Type) (now : Int) (es : Blob (P1.Entry V)) (N : Nat)
      (d : Option Int), (∀ p ∈ es, p.2 ≠ BlobEntry.null) →
      (es.map Prod.fst).Nodup →
      (P1.size now (P1.loadFromStorage now (Stored.blob es)
        (P1.construct N d))).1 = p1_liveCount now es) := by
  constructor
  · intro V now es N d hok hnd
    have hlive : ∀ p ∈ (V2.restoreLoop now es
        (V2.construct (some N) d : V2.State JKey V)).map,
        V2.isExpired now p.2 = false := by
      refine v2_restoreLoop_live now es _ ?_
      intro p hp
      cases hp
    have hclean := v2_cleanExpired_of_live now _ hlive
    show (V2.cleanExpired now (V2.restoreLoop now es
      (V2.construct (some N) d))).map.length = _
    rw [hclean, v2_restoreLoop_length now es hok _ ?_]
    · simp [V2.construct]
    · rw [show keysOf (V2.construct (some N) d : V2.State JKey V).map
        = [] from rfl, List.append_nil]
      exact hnd
  · intro V now es N d hok hnd
    have hlive : ∀ p ∈ (P1.restoreLoop now es
        (P1.construct N d : P1.State JKey V)).cache,
        P1.isExpired now p.2 = false := by
      refine p1_restoreLoop_live now es _ ?_
      intro p hp
      cases hp
    have hclean := p1_cleanExpired_of_live now _ hlive
    show (P1.cleanExpired now (P1.restoreLoop now es
      (P1.construct N d))).cache.length = _
    rw [hclean, p1_restoreLoop_length now es hok _ ?_]
    · simp [P1.construct]
    · rw [show keysOf (P1.construct N d : P1.State JKey V).cache
        = [] from rfl, List.append_nil]
      have heq : p1_blobKeys es = (es.map Prod.fst).map P1.parseKey := by
        unfold p1_blobKeys
        rw [List.map_map]
        rfl
      rw [heq]
      exact hnd.map p1_parseKey_inj

/-- Witness for the amended C10: a blob with two live entries restored
into a cache with `maxSize = 1` has size 2 after construction. -/
theorem claim_c10_witness :
    (V2.size 0 (V2.loadFromStorage 0 (Stored.blob
      [("a", BlobEntry.ok ⟨JVal.num 1, none⟩),
       ("b", BlobEntry.ok ⟨JVal.num 2, none⟩)])
      (V2.construct (some 1) none))).1 = 2 :=
  (claim_c10_amended.1 JVal 0
    [("a", BlobEntry.ok ⟨JVal.num 1, none⟩),
     ("b", BlobEntry.ok ⟨JVal.num 2, none⟩)] 1 none
    (by decide) (by decide)).trans (by decide)

end SmartCacheProof